import Mathlib

/-
Verification of the reference-extraction and affiliation-enhancement core of
the biblio-ai repository.

The embedding models JavaScript strings as lists of characters (Str).
JavaScript-specific behaviour is modelled explicitly:
  - falsiness of the empty string (jsOr, jsTruthy),
  - String.prototype.indexOf with a start position (indexOfNNFrom, for the
    hard-coded two-newline search used by the chunker),
  - parseInt returning NaN (modelled as Option),
  - Set membership as list membership.
External collaborators (the chat-completion endpoint, JSON.parse, the three
lookup services, the PDF text extractor) are parameters of the functions that
call them, so every function here is a pure, executable translation of the
corresponding source function.
-/

abbrev Str := List Char

def str (s : String) : Str := s.toList

/-- Lower-case a single ASCII character, as String.prototype.toLowerCase does
on the ASCII range used by this program. -/
def toLowerChar (c : Char) : Char :=
  if 'A' ≤ c ∧ c ≤ 'Z' then Char.ofNat (c.toNat + 32) else c

def lowerStr (s : Str) : Str := s.map toLowerChar

/-- JavaScript regex whitespace class backslash-s, restricted to the ASCII
whitespace characters that occur in this program. -/
def isJsSpace (c : Char) : Bool :=
  c = ' ' ∨ c = '\t' ∨ c = '\n' ∨ c = '\r' ∨ c = (Char.ofNat 11) ∨ c = (Char.ofNat 12)

/-- JavaScript regex word class backslash-w: letters, digits, underscore. -/
def isWordChar (c : Char) : Bool :=
  ('a' ≤ c ∧ c ≤ 'z') ∨ ('A' ≤ c ∧ c ≤ 'Z') ∨ ('0' ≤ c ∧ c ≤ '9') ∨ c = '_'

/-- strLeads pat s holds when pat is an initial segment of s. -/
def strLeads : Str → Str → Bool
  | [], _ => true
  | _ :: _, [] => false
  | p :: ps, c :: cs => p = c && strLeads ps cs

/-- containsSub a b models the JavaScript call a.includes(b). -/
def containsSub (a b : Str) : Bool :=
  strLeads b a || match a with
    | [] => false
    | _ :: rest => containsSub rest b

/-- Replace every maximal run of whitespace by a single space: the effect of
replacing the regex backslash-s-plus by a single space. -/
def collapseWs : Str → Str
  | [] => []
  | [c] => if isJsSpace c then [' '] else [c]
  | c :: d :: rest =>
    if isJsSpace c && isJsSpace d then collapseWs (d :: rest)
    else (if isJsSpace c then ' ' else c) :: collapseWs (d :: rest)

/-- String.prototype.trim: strip leading and trailing whitespace. -/
def trimStr (s : Str) : Str :=
  ((s.dropWhile isJsSpace).reverse.dropWhile isJsSpace).reverse

def splitOnSpaceAux (cur : Str) : Str → List Str
  | [] => [cur.reverse]
  | c :: rest =>
    if c = ' ' then cur.reverse :: splitOnSpaceAux [] rest
    else splitOnSpaceAux (c :: cur) rest

/-- String.prototype.split with the single-space separator: the empty string
splits to a list holding one empty string, separators are not merged. -/
def splitOnSpace (s : Str) : List Str := splitOnSpaceAux [] s

def digitVal (c : Char) : Option Nat :=
  if '0' ≤ c ∧ c ≤ '9' then some (c.toNat - '0'.toNat) else none

def parseDigits (acc : Nat) (found : Bool) : Str → Option Nat
  | [] => if found then some acc else none
  | c :: rest =>
    match digitVal c with
    | some d => parseDigits (acc * 10 + d) true rest
    | none => if found then some acc else none

/-- JavaScript parseInt on a decimal string: skip leading whitespace, read an
optional sign and a leading digit run; none models NaN. -/
def jsParseInt (s : Str) : Option Int :=
  match s.dropWhile isJsSpace with
  | [] => none
  | c :: rest =>
    if c = '-' then (parseDigits 0 false rest).map (fun n => -(n : Int))
    else if c = '+' then (parseDigits 0 false rest).map (fun n => (n : Int))
    else (parseDigits 0 false (c :: rest)).map (fun n => (n : Int))

def natToStr (n : Nat) : Str := Nat.toDigits 10 n

/-- JavaScript a || b for optional string fields: undefined and the empty
string both fall through to the default. -/
def jsOr (o : Option Str) (d : Str) : Str :=
  match o with
  | some s => if s = [] then d else s
  | none => d

/-- JavaScript truthiness of an optional string field. -/
def jsTruthy : Option Str → Bool
  | none => false
  | some s => s ≠ []

def jsOrEmpty (o : Option Str) : Str := o.getD []


/-
Data model: one bibliographic record, from types-simple (ExtractedReference).
All fields are strings in the source; firstAuthorAffiliation is optional and
only ever written by the enhancement orchestrator.
-/

structure ExtractedReference where
  citationKey : Str
  firstAuthor : Str
  otherAuthors : Str
  title : Str
  year : Str
  publisherJournal : Str
  volumeIssue : Str
  pages : Str
  extraNotes : Str
  isbn : Str
  referenceRaw : Str
  confidence : Str
  extractionMethod : Str
  firstAuthorAffiliation : Option Str := none
deriving DecidableEq

/-- One entry of the JSON array produced by the model, before normalisation:
each alternate key name the mapper reads (lines 155 to 169 of
llmBatchExtractor) is a separate optional field. -/
structure RawRef where
  citationKey : Option Str := none
  key : Option Str := none
  firstAuthor : Option Str := none
  first_author : Option Str := none
  otherAuthors : Option Str := none
  other_authors : Option Str := none
  title : Option Str := none
  year : Option Str := none
  publisherJournal : Option Str := none
  publisher : Option Str := none
  journal : Option Str := none
  volumeIssue : Option Str := none
  volume : Option Str := none
  pages : Option Str := none
  extraNotes : Option Str := none
  notes : Option Str := none
  isbn : Option Str := none
  referenceRaw : Option Str := none
  raw : Option Str := none
deriving DecidableEq

/-- The field back-fill of llmBatchExtractor lines 155 to 169: alternate key
names collapse into the canonical fields, confidence is forced to high and
extractionMethod to llm. -/
def mapRaw (index : Nat) (ref : RawRef) : ExtractedReference :=
  { citationKey := jsOr ref.citationKey (jsOr ref.key (str ("Ref-") ++ natToStr (index + 1)))
    firstAuthor := jsOr ref.firstAuthor (jsOr ref.first_author [])
    otherAuthors := jsOr ref.otherAuthors (jsOr ref.other_authors [])
    title := jsOr ref.title []
    year := jsOr ref.year []
    publisherJournal := jsOr ref.publisherJournal (jsOr ref.publisher (jsOr ref.journal []))
    volumeIssue := jsOr ref.volumeIssue (jsOr ref.volume [])
    pages := jsOr ref.pages []
    extraNotes := jsOr ref.extraNotes (jsOr ref.notes [])
    isbn := jsOr ref.isbn []
    referenceRaw := jsOr ref.referenceRaw (jsOr ref.raw [])
    confidence := str ("high")
    extractionMethod := str ("llm")
    firstAuthorAffiliation := none }

def mapRawAux (i : Nat) : List RawRef → List ExtractedReference
  | [] => []
  | r :: rest => mapRaw i r :: mapRawAux (i + 1) rest

/-- referencesArray.map of the extractor, with the running index. -/
def mapRawList (l : List RawRef) : List ExtractedReference := mapRawAux 0 l

/-- The validity test of the post-filter at llmBatchExtractor lines 172 to
176: a citation key must be present, must not contain the word unknown in any
letter case, and a title or a first author must be present. -/
def isValidRef (ref : ExtractedReference) : Bool :=
  decide (ref.citationKey ≠ []) &&
  !(containsSub (lowerStr ref.citationKey) (str ("unknown"))) &&
  (decide (ref.title ≠ []) || decide (ref.firstAuthor ≠ []))

def validFilter (refs : List ExtractedReference) : List ExtractedReference :=
  refs.filter isValidRef

/-
Cross-chunk deduplication, llmBatchExtractor lines 221 to 227: a JavaScript
Set of lower-cased citation keys, a filter keeping an element when its key was
not seen before.  The Set is modelled as the list of keys added so far.
-/

def dedupeGo (seen : List Str) : List ExtractedReference → List ExtractedReference
  | [] => []
  | r :: rest =>
    let key := lowerStr r.citationKey
    if key ∈ seen then dedupeGo seen rest
    else r :: dedupeGo (key :: seen) rest

def dedupeByKey (refs : List ExtractedReference) : List ExtractedReference :=
  dedupeGo [] refs

/-- The deduplication policy in the words of the specification: keep a record
exactly when no earlier record carries the same citation key up to letter
case; written independently of the Set-based source loop so the two can be
compared. -/
def keepFirstByKey : List ExtractedReference → List ExtractedReference
  | [] => []
  | r :: rest =>
    r :: keepFirstByKey (rest.filter (fun r2 => lowerStr r2.citationKey ≠ lowerStr r.citationKey))
termination_by l => l.length
decreasing_by
  simp only [List.length_cons]
  exact Nat.lt_succ_of_le (List.length_filter_le _ _)


/-
Chunking, llmBatchExtractor lines 190 to 208.  The source scans fullText with
a cursor: the ideal end of a chunk is currentPos + chunkSize (clamped to the
text length); when that ideal end is strictly inside the text, the first
paragraph break (two consecutive newlines) at or after endPos - 500 is looked
up with indexOf, and adopted when it lies strictly between endPos - 500 and
endPos + 500.
-/

/-- Index of the first occurrence of two consecutive newlines, the search the
source performs with indexOf of a two-newline string. -/
def findNN : Str → Option Nat
  | [] => none
  | [_] => none
  | a :: b :: rest =>
    if a = '\n' ∧ b = '\n' then some 0
    else (findNN (b :: rest)).map (· + 1)

/-- fullText.indexOf of two newlines with a start position; a negative start
is clamped to zero exactly as JavaScript clamps the position argument. -/
def indexOfNNFrom (l : Str) (start : Int) : Option Nat :=
  (findNN (l.drop start.toNat)).map (· + start.toNat)

/-- text.substring a b for indices in range. -/
def jsSubstring (l : Str) (a b : Nat) : Str := (l.take b).drop a

/-- The ideal chunk end before the paragraph-boundary adjustment:
min of currentPos + chunkSize and the text length. -/
def idealEnd (fullText : Str) (chunkSize currentPos : Nat) : Nat :=
  min (currentPos + chunkSize) fullText.length

/-- The end position of the chunk starting at currentPos: lines 196 to 204 of
the source. -/
def nextEnd (fullText : Str) (chunkSize currentPos : Nat) : Nat :=
  if idealEnd fullText chunkSize currentPos < fullText.length then
    match indexOfNNFrom fullText ((idealEnd fullText chunkSize currentPos : Int) - 500) with
    | some nextBreak =>
      if (idealEnd fullText chunkSize currentPos : Int) - 500 < (nextBreak : Int) ∧
         (nextBreak : Int) < (idealEnd fullText chunkSize currentPos : Int) + 500
      then nextBreak else idealEnd fullText chunkSize currentPos
    | none => idealEnd fullText chunkSize currentPos
  else idealEnd fullText chunkSize currentPos

theorem findNN_bound : ∀ l : Str, ∀ i, findNN l = some i → i + 1 < l.length := by
  intro l
  induction l with
  | nil => intro i h; simp [findNN] at h
  | cons a rest ih =>
    intro i h
    match rest, ih with
    | [], _ => simp [findNN] at h
    | b :: rest2, ih =>
      rw [findNN] at h
      split at h
      · cases h; simp
      · simp only [Option.map_eq_some'] at h
        obtain ⟨j, hj, rfl⟩ := h
        have := ih j hj
        simpa [Nat.succ_lt_succ_iff] using Nat.succ_lt_succ this

theorem idealEnd_le (fullText : Str) (chunkSize currentPos : Nat) :
    idealEnd fullText chunkSize currentPos ≤ fullText.length :=
  min_le_right _ _

/-- A found paragraph break starts strictly inside the text (it occupies two
characters). -/
theorem indexOfNNFrom_bound (l : Str) (start : Int) (i : Nat)
    (h : indexOfNNFrom l start = some i) : i + 1 < l.length := by
  unfold indexOfNNFrom at h
  simp only [Option.map_eq_some'] at h
  obtain ⟨j, hj, rfl⟩ := h
  have hb := findNN_bound _ j hj
  have hdl : (l.drop start.toNat).length = l.length - start.toNat := List.length_drop _ _
  omega

theorem nextEnd_le (fullText : Str) (chunkSize currentPos : Nat) :
    nextEnd fullText chunkSize currentPos ≤ fullText.length := by
  unfold nextEnd
  split
  · split
    · rename_i nextBreak heq
      split
      · have hb := indexOfNNFrom_bound _ _ _ heq
        omega
      · exact idealEnd_le _ _ _
    · exact idealEnd_le _ _ _
  · exact idealEnd_le _ _ _

theorem idealEnd_eq_of_lt (fullText : Str) (chunkSize currentPos : Nat)
    (h : idealEnd fullText chunkSize currentPos < fullText.length) :
    idealEnd fullText chunkSize currentPos = currentPos + chunkSize := by
  unfold idealEnd at *
  rcases Nat.lt_or_ge (currentPos + chunkSize) fullText.length with hc | hc
  · exact min_eq_left (Nat.le_of_lt hc)
  · rw [min_eq_right hc] at h; omega

theorem nextEnd_gt (fullText : Str) (chunkSize currentPos : Nat)
    (h500 : 500 ≤ chunkSize) (hcur : currentPos < fullText.length) :
    currentPos < nextEnd fullText chunkSize currentPos := by
  unfold nextEnd
  split
  · rename_i hlt
    have hmin := idealEnd_eq_of_lt fullText chunkSize currentPos hlt
    split
    · split
      · rename_i hcond
        rw [hmin] at hcond
        omega
      · rw [hmin]; omega
    · rw [hmin]; omega
  · rename_i hge
    unfold idealEnd at *
    omega

/-- When the ideal chunk end is strictly inside the text, the chosen end also
is: a paragraph break starts at least two characters before the end. -/
theorem nextEnd_lt_of_room (fullText : Str) (chunkSize currentPos : Nat)
    (hroom : currentPos + chunkSize < fullText.length) :
    nextEnd fullText chunkSize currentPos < fullText.length := by
  have hmin : idealEnd fullText chunkSize currentPos = currentPos + chunkSize := by
    unfold idealEnd; exact min_eq_left (Nat.le_of_lt hroom)
  have hcases : nextEnd fullText chunkSize currentPos = idealEnd fullText chunkSize currentPos ∨
      nextEnd fullText chunkSize currentPos + 1 < fullText.length := by
    unfold nextEnd
    split
    · split
      · rename_i nextBreak heq
        split
        · right
          have hb := indexOfNNFrom_bound _ _ _ heq
          omega
        · left; rfl
      · left; rfl
    · left; rfl
  rcases hcases with h | h
  · omega
  · omega

/-- The chunking loop of extractInChunks.  The inner guard is never taken for
the chunk sizes the program uses (nextEnd_gt shows progress whenever the
chunk size is at least 500; the only call site uses 15000); it is present
solely so the translation is total, where the source would loop forever. -/
def chunkLoop (fullText : Str) (chunkSize currentPos : Nat) : List Str :=
  if h : currentPos < fullText.length then
    if hp : currentPos < nextEnd fullText chunkSize currentPos then
      jsSubstring fullText currentPos (nextEnd fullText chunkSize currentPos) ::
        chunkLoop fullText chunkSize (nextEnd fullText chunkSize currentPos)
    else [jsSubstring fullText currentPos (nextEnd fullText chunkSize currentPos)]
  else []
termination_by fullText.length - currentPos
decreasing_by omega

def chunkify (fullText : Str) (chunkSize : Nat) : List Str :=
  chunkLoop fullText chunkSize 0

theorem jsSubstring_length (l : Str) (a b : Nat) :
    (jsSubstring l a b).length = min b l.length - a := by
  simp [jsSubstring]

theorem chunkLoop_len_bounds_aux (fullText : Str) (cs : Nat)
    (h500 : 500 ≤ cs) (hlen : cs < fullText.length) :
    ∀ fuel cur, fullText.length - cur ≤ fuel →
      ∀ c ∈ chunkLoop fullText cs cur, 0 < c.length ∧ c.length < fullText.length := by
  intro fuel
  induction fuel with
  | zero =>
    intro cur hle c hc
    rw [chunkLoop] at hc
    rw [dif_neg (by omega)] at hc
    simp at hc
  | succ n ih =>
    intro cur hle c hc
    rw [chunkLoop] at hc
    by_cases hcur : cur < fullText.length
    · rw [dif_pos hcur] at hc
      have hgt := nextEnd_gt fullText cs cur h500 hcur
      have hne := nextEnd_le fullText cs cur
      rw [dif_pos hgt] at hc
      rcases List.mem_cons.mp hc with hhead | htail
      · subst hhead
        rw [jsSubstring_length]
        have hmin : min (nextEnd fullText cs cur) fullText.length = nextEnd fullText cs cur :=
          min_eq_left hne
        rw [hmin]
        constructor
        · omega
        · rcases Nat.eq_zero_or_pos cur with h0 | hpos
          · subst h0
            have := nextEnd_lt_of_room fullText cs 0 (by omega)
            omega
          · omega
      · exact ih (nextEnd fullText cs cur) (by omega) c htail
    · rw [dif_neg hcur] at hc
      simp at hc

/-- Every chunk the splitter produces for an over-budget text is nonempty and
strictly shorter than the whole text. -/
theorem chunk_len_bounds (fullText : Str) (cs : Nat)
    (h500 : 500 ≤ cs) (hlen : cs < fullText.length) :
    ∀ c ∈ chunkify fullText cs, 0 < c.length ∧ c.length < fullText.length := by
  intro c hc
  exact chunkLoop_len_bounds_aux fullText cs h500 hlen (fullText.length) 0 (by omega) c hc

/-
The model-backed extractor, llmBatchExtractor lines 69 to 231.  The external
collaborators are collected in LLMEnv: configured is whether an API key was
present when the module loaded; complete models one chat-completion call
(error is a thrown exception, ok none a response with no content, ok some a
content string); parseJson models JSON.parse (none is a parse exception),
returning the shape information lines 139 to 150 inspect.
-/

inductive LLMJson where
  | arr (refs : List RawRef)
  | obj (references : Option (List RawRef)) (items : Option (List RawRef))
  | other
deriving DecidableEq

/-- Lines 139 to 150: accept a bare array, or an object carrying an array
under references or items; anything else is rejected. -/
def refArray : LLMJson → Option (List RawRef)
  | .arr refs => some refs
  | .obj (some refs) _ => some refs
  | .obj none (some refs) => some refs
  | .obj none none => none
  | .other => none

structure LLMEnv where
  configured : Bool
  complete : Str → Except Str (Option Str)
  parseJson : Str → Option LLMJson

/-- The regex match of a bracketed array literal (first opening bracket to
last closing bracket), used by recovery step (c). -/
def bracketSlice (s : Str) : Option Str :=
  match s.findIdx? (fun c => c = '['), s.reverse.findIdx? (fun c => c = ']') with
  | some i, some jr =>
    if i < s.length - 1 - jr then some (jsSubstring s i (s.length - 1 - jr + 1)) else none
  | _, _ => none

/-- The three-step JSON recovery ladder, lines 111 to 137: parse directly;
then append a closing bracket and brace to the trimmed content and re-parse;
then slice out the first bracketed array and parse that, wrapping it as the
references field. -/
def parseLadder (env : LLMEnv) (content : Str) : Option LLMJson :=
  match env.parseJson content with
  | some p => some p
  | none =>
    match env.parseJson (trimStr content ++ str ("]\x7d")) with
    | some p => some p
    | none =>
      match bracketSlice content with
      | some s =>
        match env.parseJson s with
        | some (.arr refs) => some (.obj (some refs) none)
        | some _ => some (.obj none none)
        | none => none
      | none => none

/-- One pass of the extractor body over a text within the budget: the chat
call, the parse ladder, the shape check, the field back-fill and the validity
post-filter.  The error constructor carries the message the source throws. -/
def extractOnce (env : LLMEnv) (text : Str) : Except Str (List ExtractedReference) :=
  match env.complete text with
  | .error e => .error e
  | .ok none => .error (str ("No response from LLM"))
  | .ok (some content) =>
    match parseLadder env content with
    | none => .error (str ("Invalid JSON response from LLM (tried recovery)"))
    | some parsed =>
      match refArray parsed with
      | none => .error (str ("LLM did not return an array of references"))
      | some arr => .ok (validFilter (mapRawList arr))

/-- extractAllReferencesWithLLM: return an empty list when no client is
configured; chunk and recurse when the text exceeds 15000 characters,
deduplicating the concatenated chunk results by lower-cased citation key; and
otherwise run one model call, mapping every thrown error to an empty list. -/
def extractAllReferencesWithLLM (env : LLMEnv) (fullText : Str) : List ExtractedReference :=
  if env.configured = false then []
  else if h : 15000 < fullText.length then
    dedupeByKey
      (((chunkify fullText 15000).attach.map
        (fun c => extractAllReferencesWithLLM env c.1)).flatten)
  else
    match extractOnce env fullText with
    | .error _ => []
    | .ok refs => refs
termination_by fullText.length
decreasing_by
  exact (chunk_len_bounds fullText 15000 (by omega) h c.1 c.2).2

/-
Record Store, masterTable lines 95 to 149 (addToMasterTable) and 210 to 216
(normalizeText).  The two JavaScript Sets of identifiers are modelled as the
lists of identifiers added so far, with set membership as list membership.
-/

/-- normalizeText of the master table: lower-case, collapse whitespace runs
to single spaces, strip characters that are neither word characters nor
whitespace, trim. -/
def normalizeText (text : Str) : Str :=
  trimStr (((collapseWs (lowerStr text)).filter (fun c => isWordChar c || isJsSpace c)))

structure MergeState where
  refs : List ExtractedReference
  keys : List Str
  raws : List Str
  added : Nat
  duplicates : Nat
deriving DecidableEq

/-- The initial key set: lower-cased citation keys of the stored records that
have one. -/
def initKeys (existing : List ExtractedReference) : List Str :=
  existing.foldl
    (fun s r => if r.citationKey ≠ [] then lowerStr r.citationKey :: s else s) []

/-- The initial raw-text set: normalized raw reference texts of the stored
records that have one. -/
def initRaws (existing : List ExtractedReference) : List Str :=
  existing.foldl
    (fun s r => if r.referenceRaw ≠ [] then normalizeText r.referenceRaw :: s else s) []

/-- The duplicate test of lines 120 to 122, against the running sets. -/
def isDupAgainst (keys raws : List Str) (r : ExtractedReference) : Bool :=
  (decide (r.citationKey ≠ []) && decide (lowerStr r.citationKey ∈ keys)) ||
  (decide (r.referenceRaw ≠ []) && decide (normalizeText r.referenceRaw ∈ raws))

/-- One loop iteration of lines 119 to 137: skip a duplicate, otherwise
append the record and record its identifiers. -/
def mergeStep (st : MergeState) (r : ExtractedReference) : MergeState :=
  if isDupAgainst st.keys st.raws r then
    { st with duplicates := st.duplicates + 1 }
  else
    { refs := st.refs ++ [r]
      keys := if r.citationKey ≠ [] then lowerStr r.citationKey :: st.keys else st.keys
      raws := if r.referenceRaw ≠ [] then normalizeText r.referenceRaw :: st.raws else st.raws
      added := st.added + 1
      duplicates := st.duplicates }

/-- addToMasterTable: fold the incoming records over the store loaded from
disk; the refs field of the result is the collection that is saved back, and
total as reported equals its length. -/
def addToMasterTable (existing newReferences : List ExtractedReference) : MergeState :=
  newReferences.foldl mergeStep
    { refs := existing
      keys := initKeys existing
      raws := initRaws existing
      added := 0
      duplicates := 0 }

/-- The duplicate criterion in the words of the specification: an incoming
record is a duplicate of the store when its citation key matches a stored one
up to letter case, or its normalized raw text matches a stored one. -/
def dupOfStore (existing : List ExtractedReference) (r : ExtractedReference) : Prop :=
  (r.citationKey ≠ [] ∧
    ∃ e ∈ existing, e.citationKey ≠ [] ∧ lowerStr e.citationKey = lowerStr r.citationKey) ∨
  (r.referenceRaw ≠ [] ∧
    ∃ e ∈ existing, e.referenceRaw ≠ [] ∧ normalizeText e.referenceRaw = normalizeText r.referenceRaw)

instance (existing : List ExtractedReference) (r : ExtractedReference) :
    Decidable (dupOfStore existing r) := by
  unfold dupOfStore
  infer_instance

/-
Extraction orchestrator, orchestrator lines 24 to 135.  The PDF text
collaborator is a parameter returning the page texts or a thrown error; the
extractor is a parameter (instantiated with extractAllReferencesWithLLM).
The job record keeps the fields of ExtractionJob that the orchestrator
writes; identifiers and wall-clock timestamps are outside the model.
-/

structure ExtractionJobModel where
  status : Str
  progress : Nat
  totalReferences : Nat
  extractedReferences : List ExtractedReference
  error : Option Str
deriving DecidableEq

/-- pages.map of page text joined with blank lines, orchestrator line 84. -/
def joinPages (pages : List Str) : Str :=
  List.intercalate (str ("\n\n")) pages

/-- processExtraction, lines 71 to 135: an error value is an exception
reaching the background catch handler. -/
def processExtraction {α : Type} (extractPdf : α → Except Str (List Str))
    (extract : Str → List ExtractedReference) (pdfBuffer : Option α)
    (master : List ExtractedReference) :
    Except Str (ExtractionJobModel × List ExtractedReference) :=
  match pdfBuffer with
  | none => .error (str ("No PDF buffer provided"))
  | some buffer =>
    match extractPdf buffer with
    | .error e => .error e
    | .ok pages =>
      let references := extract (joinPages pages)
      if references.length = 0 then
        .error (str ("No references were extracted from the text"))
      else
        let merged := addToMasterTable master references
        .ok
          ({ status := str ("completed")
             progress := 100
             totalReferences := merged.refs.length
             extractedReferences := references
             error := none },
           merged.refs)

/-- startExtraction, lines 24 to 66: the job runs detached and the catch
handler records a failure into the persisted job, so the call itself always
returns; the returned pair is the final persisted job and the final store
collection. -/
def startExtraction {α : Type} (extractPdf : α → Except Str (List Str))
    (extract : Str → List ExtractedReference) (pdfBuffer : Option α)
    (master : List ExtractedReference) :
    ExtractionJobModel × List ExtractedReference :=
  match processExtraction extractPdf extract pdfBuffer master with
  | .ok result => result
  | .error e =>
    ({ status := str ("failed")
       progress := 0
       totalReferences := 0
       extractedReferences := []
       error := some e },
     master)

/-- The number of chat-completion calls extractAllReferencesWithLLM issues on
a given text: none without a configured client, one per within-budget text,
and the sum over chunks for an over-budget text. -/
def llmCallCount (configured : Bool) (fullText : Str) : Nat :=
  if configured = false then 0
  else if h : 15000 < fullText.length then
    (((chunkify fullText 15000).attach.map
      (fun c => llmCallCount configured c.1))).sum
  else 1
termination_by fullText.length
decreasing_by
  exact (chunk_len_bounds fullText 15000 (by omega) h c.1 c.2).2

/-
Tiered affiliation resolver, affiliationFinder (the third part of the
pipeline sources).  Tiers one and two are whole-service oracles; tier three
is modelled down to its scan over the returned work because its acceptance
condition is part of the specification.
-/

structure AffiliationResult where
  affiliation : Option Str
  confidence : Str
  source : Str
deriving DecidableEq

/-- cleanText: replace non-word non-space characters by spaces, collapse
whitespace, trim. -/
def cleanText (text : Str) : Str :=
  trimStr (collapseWs (text.map (fun c => if isWordChar c || isJsSpace c then c else ' ')))

/-- normalizeAuthorName: lower-case, strip non-word non-space characters,
collapse whitespace, trim. -/
def normalizeAuthorName (name : Str) : Str :=
  trimStr (collapseWs ((lowerStr name).filter (fun c => isWordChar c || isJsSpace c)))

/-- The first character of the first token, or empty when the token is empty:
models the optional chain on parts zero. -/
def firstInitial (parts : List Str) : Str :=
  match parts with
  | (c :: _) :: _ => [c]
  | _ => []

/-- The last token of the split name; split always returns a nonempty list so
the default is never used. -/
def lastToken (parts : List Str) : Str := parts.getLastD []

/-- authorsMatch, ocr pipeline lines 666 to 696. -/
def authorsMatch (name1 name2 : Str) : Bool :=
  let n1 := normalizeAuthorName name1
  let n2 := normalizeAuthorName name2
  if n1 = n2 then true
  else if containsSub n1 n2 || containsSub n2 n1 then true
  else
    let parts1 := splitOnSpace n1
    let parts2 := splitOnSpace n2
    if lastToken parts1 ≠ lastToken parts2 then false
    else if firstInitial parts1 ≠ [] ∧ firstInitial parts2 ≠ [] ∧
            firstInitial parts1 ≠ firstInitial parts2 then false
    else true

/-- The matching rule in the words of the specification: normalized equality,
containment either way, or equal last tokens with first initials equal or
absent. -/
def authorsMatchSpec (name1 name2 : Str) : Prop :=
  let n1 := normalizeAuthorName name1
  let n2 := normalizeAuthorName name2
  n1 = n2 ∨ containsSub n1 n2 = true ∨ containsSub n2 n1 = true ∨
  (lastToken (splitOnSpace n1) = lastToken (splitOnSpace n2) ∧
   (firstInitial (splitOnSpace n1) = [] ∨ firstInitial (splitOnSpace n2) = [] ∨
    firstInitial (splitOnSpace n1) = firstInitial (splitOnSpace n2)))

structure OAInstitution where
  display_name : Str
  country_code : Option Str
deriving DecidableEq

structure OAAuthorship where
  author_display_name : Option Str
  institutions : List OAInstitution
deriving DecidableEq

structure OAWork where
  authorships : List OAAuthorship
deriving DecidableEq

/-- The parenthesised country code suffix, empty when the code is absent or
empty. -/
def countrySuffix : Option Str → Str
  | some cc => if cc = [] then [] else ' ' :: '(' :: (cc ++ [')'])
  | none => []

/-- The authorship scan of extractAffiliationFromWork: on a name match with a
nonempty institution list return the first institution with its country
suffix; otherwise keep scanning. -/
def scanAuthorships (targetAuthor : Str) : List OAAuthorship → Option Str
  | [] => none
  | a :: rest =>
    if authorsMatch targetAuthor (jsOrEmpty a.author_display_name) then
      match a.institutions with
      | inst :: _ => some (inst.display_name ++ countrySuffix inst.country_code)
      | [] => scanAuthorships targetAuthor rest
    else scanAuthorships targetAuthor rest

/-- extractAffiliationFromWork, lines 614 to 639: the early return for an
empty authorship list coincides with the scan of an empty list. -/
def extractAffiliationFromWork (work : OAWork) (targetAuthor : Str) : Option Str :=
  scanAuthorships targetAuthor work.authorships

structure TierOracles where
  semanticScholar : Str → Str → Str → Option Str
  perplexity : Str → Str → Str → Option Str
  openAlex : Str → Option Str → Option (List OAWork)

/-- searchOpenAlex, lines 571 to 609: the oracle stands for the HTTP fetch
and JSON decode, applied to the cleaned title and the optional year filter;
none covers a non-2xx response, a thrown error and a missing result list. -/
def searchOpenAlex (o : TierOracles) (authorName title year : Str) : Option Str :=
  match o.openAlex (cleanText title) (if year = [] then none else some year) with
  | none => none
  | some [] => none
  | some (work :: _) => extractAffiliationFromWork work authorName

/-- The truthiness test applied to each tier result: a null or empty string
is a miss. -/
def jsStrHit : Option Str → Option Str
  | none => none
  | some s => if s = [] then none else some s

/-- The historical-work test of findAffiliation lines 338 to 342: parseInt on
the year must produce a truthy value (nonzero, not NaN) below 1900. -/
def jsHistorical (year : Str) : Bool :=
  match jsParseInt year with
  | some n => decide (n ≠ 0 ∧ n < 1900)
  | none => false

inductive TierCall where
  | tier1
  | tier2
  | tier3
deriving DecidableEq

/-- The tier-three tail of findAffiliation, shared by both configurations. -/
def tierThreeResult (o : TierOracles) (authorName paperTitle year : Str)
    (trace : List TierCall) : AffiliationResult × List TierCall :=
  match jsStrHit (searchOpenAlex o authorName paperTitle year) with
  | some aff =>
    ({ affiliation := some aff, confidence := str ("medium"), source := str ("openalex") }, trace)
  | none =>
    ({ affiliation := none, confidence := str ("low"), source := str ("openalex") }, trace)

/-- findAffiliation, lines 328 to 385, paired with the list of tier services
actually contacted (the network calls it issues, in order). -/
def findAffiliation (hasPerplexityKey : Bool) (o : TierOracles)
    (authorName paperTitle year : Str) : AffiliationResult × List TierCall :=
  if authorName = [] ∨ paperTitle = [] then
    ({ affiliation := none, confidence := str ("low"), source := str ("openalex") }, [])
  else if jsHistorical year then
    ({ affiliation := none, confidence := str ("low"), source := str ("skipped-historical") }, [])
  else
    match jsStrHit (o.semanticScholar authorName paperTitle year) with
    | some aff =>
      ({ affiliation := some aff, confidence := str ("high"), source := str ("semantic-scholar") },
       [TierCall.tier1])
    | none =>
      if hasPerplexityKey then
        match jsStrHit (o.perplexity authorName paperTitle year) with
        | some aff =>
          ({ affiliation := some aff, confidence := str ("high"), source := str ("perplexity") },
           [TierCall.tier1, TierCall.tier2])
        | none =>
          tierThreeResult o authorName paperTitle year
            [TierCall.tier1, TierCall.tier2, TierCall.tier3]
      else
        tierThreeResult o authorName paperTitle year [TierCall.tier1, TierCall.tier3]

/-
Enhancement orchestrator, the second part of the pipeline sources, lines 202
to 290.  The resolver is a parameter; the outcome records the final job
fields, the collection passed to saveMasterTable when the save is reached,
and how many times the resolver was called.
-/

structure EnhanceOutcome where
  status : Str
  progress : Nat
  totalReferences : Nat
  processedReferences : Nat
  enhancedReferences : Nat
  error : Option Str
  saved : Option (List ExtractedReference)
  resolverCalls : Nat
deriving DecidableEq

/-- Write an affiliation into the record at the found index. -/
def setAffiliation (refs : List ExtractedReference) (i : Nat) (aff : Str) :
    List ExtractedReference :=
  match refs[i]? with
  | some r => refs.set i { r with firstAuthorAffiliation := some aff }
  | none => refs

/-- One iteration of the enhancement loop, lines 237 to 271: resolve, and on
a truthy affiliation locate the record by exact nonempty citation key and
set its affiliation field, counting the enhancement. -/
def enhanceStep (resolve : Str → Str → Str → AffiliationResult)
    (st : List ExtractedReference × Nat) (ref : ExtractedReference) :
    List ExtractedReference × Nat :=
  match jsStrHit (resolve ref.firstAuthor ref.title ref.year).affiliation with
  | some aff =>
    match st.1.findIdx?
        (fun r => decide (r.citationKey ≠ [] ∧ ref.citationKey ≠ [] ∧
          r.citationKey = ref.citationKey)) with
    | some i => (setAffiliation st.1 i aff, st.2 + 1)
    | none => st
  | none => st

/-- The working-set filter of lines 221 to 223: records with no truthy
affiliation and a nonempty first author. -/
def needsEnhancementFilter (master : List ExtractedReference) : List ExtractedReference :=
  master.filter (fun r => !jsTruthy r.firstAuthorAffiliation && decide (r.firstAuthor ≠ []))

/-- processEnhancement, lines 202 to 290: an empty store throws (the job
fails); an empty working set completes immediately with nothing saved and no
resolver call; otherwise every working-set record is resolved in order and
the mutated full collection is saved once. -/
def processEnhancement (resolve : Str → Str → Str → AffiliationResult)
    (master : List ExtractedReference) : EnhanceOutcome :=
  if master.length = 0 then
    { status := str ("failed")
      progress := 0
      totalReferences := 0
      processedReferences := 0
      enhancedReferences := 0
      error := some (str ("No references found in master table"))
      saved := none
      resolverCalls := 0 }
  else
    let needs := needsEnhancementFilter master
    if needs.isEmpty then
      { status := str ("completed")
        progress := 100
        totalReferences := master.length
        processedReferences := 0
        enhancedReferences := 0
        error := none
        saved := none
        resolverCalls := 0 }
    else
      let final := needs.foldl (enhanceStep resolve) (master, 0)
      { status := str ("completed")
        progress := 100
        totalReferences := master.length
        processedReferences := needs.length
        enhancedReferences := final.2
        error := none
        saved := some final.1
        resolverCalls := needs.length }

/-- Equality of two records on every field except firstAuthorAffiliation. -/
def frameEq (a b : ExtractedReference) : Prop :=
  a.citationKey = b.citationKey ∧ a.firstAuthor = b.firstAuthor ∧
  a.otherAuthors = b.otherAuthors ∧ a.title = b.title ∧ a.year = b.year ∧
  a.publisherJournal = b.publisherJournal ∧ a.volumeIssue = b.volumeIssue ∧
  a.pages = b.pages ∧ a.extraNotes = b.extraNotes ∧ a.isbn = b.isbn ∧
  a.referenceRaw = b.referenceRaw ∧ a.confidence = b.confidence ∧
  a.extractionMethod = b.extractionMethod

/-
Verification fixtures: concrete oracles, records and texts used by the
witness and counterexample theorems below.
-/

def oracleNone : TierOracles :=
  { semanticScholar := fun _ _ _ => none
    perplexity := fun _ _ _ => none
    openAlex := fun _ _ => none }

def resolveNone : Str → Str → Str → AffiliationResult :=
  fun _ _ _ => { affiliation := none, confidence := str ("low"), source := str ("openalex") }

def recA : ExtractedReference :=
  { citationKey := str ("A"), firstAuthor := str ("X"), otherAuthors := []
    title := str ("T"), year := str ("2000"), publisherJournal := []
    volumeIssue := [], pages := [], extraNotes := [], isbn := []
    referenceRaw := [], confidence := str ("high"), extractionMethod := str ("llm")
    firstAuthorAffiliation := none }

def recNoAuthor : ExtractedReference :=
  { citationKey := str ("B"), firstAuthor := [], otherAuthors := []
    title := str ("T"), year := str ("2000"), publisherJournal := []
    volumeIssue := [], pages := [], extraNotes := [], isbn := []
    referenceRaw := [], confidence := str ("high"), extractionMethod := str ("llm")
    firstAuthorAffiliation := none }

def workMatch : OAWork :=
  { authorships := [{ author_display_name := some (str ("John Smith"))
                      institutions := [{ display_name := str ("MIT")
                                         country_code := some (str ("US")) }] }] }

def workMiss : OAWork :=
  { authorships := [{ author_display_name := some (str ("Bob Jones"))
                      institutions := [{ display_name := str ("MIT")
                                         country_code := some (str ("US")) }] }] }

def oracleHit : TierOracles :=
  { semanticScholar := fun _ _ _ => none
    perplexity := fun _ _ _ => none
    openAlex := fun _ _ => some [workMatch] }

def recB : ExtractedReference :=
  { citationKey := str ("B"), firstAuthor := str ("Al"), otherAuthors := []
    title := str ("T"), year := str ("2000"), publisherJournal := []
    volumeIssue := [], pages := [], extraNotes := [], isbn := []
    referenceRaw := [], confidence := str ("high"), extractionMethod := str ("llm")
    firstAuthorAffiliation := none }

def resolveHit : Str → Str → Str → AffiliationResult :=
  fun _ _ _ => { affiliation := some (str ("MIT (US)")), confidence := str ("high")
                 source := str ("perplexity") }

def rawK : RawRef := { citationKey := some (str ("K")), title := some (str ("T")) }

def env0 : LLMEnv :=
  { configured := true
    complete := fun _ => .ok (some (str ("j")))
    parseJson := fun _ => some (.arr [rawK]) }

def refK : ExtractedReference := mapRaw 0 rawK

def envErr : LLMEnv :=
  { configured := true
    complete := fun _ => .error (str ("boom"))
    parseJson := fun _ => none }

def nnStr : Str := ['\n', '\n']

def c1text1 : Str := List.replicate 15050 'a' ++ nnStr ++ List.replicate 148 'a'

def c1text2 : Str :=
  List.replicate 14500 'a' ++ nnStr ++ List.replicate 98 'a' ++ nnStr ++ List.replicate 500 'a'

/-- There is a paragraph break starting at position i of the text. -/
def hasNNAt (l : Str) (i : Nat) : Bool := strLeads nnStr (l.drop i)



theorem authorsMatch_iff_spec (name1 name2 : Str) :
    authorsMatch name1 name2 = true ↔ authorsMatchSpec name1 name2 := by
  unfold authorsMatch authorsMatchSpec
  by_cases h1 : normalizeAuthorName name1 = normalizeAuthorName name2
  · simp [h1]
  · by_cases hc1 : containsSub (normalizeAuthorName name1) (normalizeAuthorName name2) = true
    · simp [h1, hc1]
    · by_cases hc2 : containsSub (normalizeAuthorName name2) (normalizeAuthorName name1) = true
      · simp [h1, hc1, hc2]
      · by_cases hl : lastToken (splitOnSpace (normalizeAuthorName name1)) =
            lastToken (splitOnSpace (normalizeAuthorName name2))
        · by_cases hf1 : firstInitial (splitOnSpace (normalizeAuthorName name1)) = []
          · simp [h1, hc1, hc2, hl, hf1]
          · by_cases hf2 : firstInitial (splitOnSpace (normalizeAuthorName name2)) = []
            · simp [h1, hc1, hc2, hl, hf1, hf2]
            · by_cases hf : firstInitial (splitOnSpace (normalizeAuthorName name1)) =
                  firstInitial (splitOnSpace (normalizeAuthorName name2))
              · simp [h1, hc1, hc2, hl, hf1, hf2, hf]
              · simp [h1, hc1, hc2, hl, hf1, hf2, hf]
        · simp [h1, hc1, hc2, hl]

/-- C5 (amended).  For nonempty author and title and a year that parseInt
reads as a nonzero number below 1900, findAffiliation returns a null
affiliation with source skipped-historical and issues no tier call. -/
theorem c5_historical_skip (hasKey : Bool) (o : TierOracles) (authorName paperTitle year : Str) (n : Int)
    (hname : authorName ≠ []) (htitle : paperTitle ≠ [])
    (hparse : jsParseInt year = some n) (hn0 : n ≠ 0) (hn : n < 1900) :
    findAffiliation hasKey o authorName paperTitle year =
      ({ affiliation := none, confidence := str ("low"),
         source := str ("skipped-historical") }, []) := by
  unfold findAffiliation
  rw [if_neg (by tauto)]
  rw [if_pos (by unfold jsHistorical; rw [hparse]; simp [hn0, hn])]


/-- C5 counterexample.  The year string 0 parses to a number below 1900,
yet the zero is falsy, so the historical skip does not fire: the resolver
proceeds to the tiers (the trace is nonempty) and the source is not
skipped-historical. -/
theorem c5_historical_skip_counterexample :
    jsParseInt (str ("0")) = some 0 ∧ ((0 : Int) < 1900) ∧
    (findAffiliation false oracleNone (str ("A")) (str ("T")) (str ("0"))).1.source ≠
      str ("skipped-historical") ∧
    (findAffiliation false oracleNone (str ("A")) (str ("T")) (str ("0"))).2 ≠ [] := by
  decide

/-- C6.  When the extractor returns zero references for the submitted
document, the persisted job ends failed with the zero-references error
message recorded, and the master table is left untouched; startExtraction
itself returns this state normally rather than raising. -/
theorem c6_zero_references_fail {α : Type} (extractPdf : α → Except Str (List Str))
    (extract : Str → List ExtractedReference) (buffer : α) (pages : List Str)
    (master : List ExtractedReference)
    (hpdf : extractPdf buffer = .ok pages)
    (hempty : extract (joinPages pages) = []) :
    (startExtraction extractPdf extract (some buffer) master).1.status = str ("failed") ∧
    (startExtraction extractPdf extract (some buffer) master).1.error =
      some (str ("No references were extracted from the text")) ∧
    (startExtraction extractPdf extract (some buffer) master).2 = master := by
  simp only [startExtraction, processExtraction]
  rw [hpdf]
  simp [hempty]

/-- C7 (amended).  For every non-empty store whose working set (records with
a first author and no affiliation) is empty, the enhancement job completes
immediately at progress 100 with no resolver call and no store write. -/
theorem c7_empty_working_set (resolve : Str → Str → Str → AffiliationResult)
    (master : List ExtractedReference) (hne : master ≠ [])
    (hempty : needsEnhancementFilter master = []) :
    processEnhancement resolve master =
      { status := str ("completed")
        progress := 100
        totalReferences := master.length
        processedReferences := 0
        enhancedReferences := 0
        error := none
        saved := none
        resolverCalls := 0 } := by
  unfold processEnhancement
  rw [if_neg (by simp [List.length_eq_zero, hne])]
  simp [hempty]


/-- C7 counterexample.  With an empty store the working set is also empty,
but the job fails (the source throws on an empty master table) instead of
completing. -/
theorem c7_empty_working_set_counterexample :
    needsEnhancementFilter [] = [] ∧
    (processEnhancement resolveNone []).status = str ("failed") ∧
    (processEnhancement resolveNone []).status ≠ str ("completed") ∧
    (processEnhancement resolveNone []).progress ≠ 100 := by
  decide

theorem scanAuthorships_some_mem :
    ∀ (l : List OAAuthorship) (t aff : Str), scanAuthorships t l = some aff →
      ∃ a ∈ l, authorsMatch t (jsOrEmpty a.author_display_name) = true := by
  intro l
  induction l with
  | nil => intro t aff h; simp [scanAuthorships] at h
  | cons a rest ih =>
    intro t aff h
    rw [scanAuthorships] at h
    by_cases hm : authorsMatch t (jsOrEmpty a.author_display_name) = true
    · exact ⟨a, List.mem_cons_self a rest, hm⟩
    · rw [if_neg (by simpa using hm)] at h
      obtain ⟨b, hb, hmb⟩ := ih t aff h
      exact ⟨b, List.mem_cons_of_mem a hb, hmb⟩

theorem scanAuthorships_none :
    ∀ (l : List OAAuthorship) (t : Str),
      (∀ a ∈ l, authorsMatch t (jsOrEmpty a.author_display_name) = false) →
      scanAuthorships t l = none := by
  intro l
  induction l with
  | nil => intro t _; simp [scanAuthorships]
  | cons a rest ih =>
    intro t h
    rw [scanAuthorships]
    rw [if_neg (by simp [h a (List.mem_cons_self a rest)])]
    exact ih t (fun b hb => h b (List.mem_cons_of_mem a hb))

/-- C8.  Whenever the tier-three lookup yields an affiliation, the top
returned work has an authorship whose display name matches the target author
under the matching rule; and for a work all of whose listed authors fail the
match the extraction returns null. -/
theorem c8_openalex_name_match :
    (∀ (o : TierOracles) (authorName title year aff : Str),
      searchOpenAlex o authorName title year = some aff →
      ∃ works, o.openAlex (cleanText title) (if year = [] then none else some year) = some works ∧
        ∃ w rest, works = w :: rest ∧
          ∃ a ∈ w.authorships, authorsMatch authorName (jsOrEmpty a.author_display_name) = true)
    ∧ (∀ (w : OAWork) (authorName : Str),
        (∀ a ∈ w.authorships, authorsMatch authorName (jsOrEmpty a.author_display_name) = false) →
        extractAffiliationFromWork w authorName = none) := by
  constructor
  · intro o authorName title year aff h
    unfold searchOpenAlex at h
    cases heq : o.openAlex (cleanText title) (if year = [] then none else some year) with
    | none => rw [heq] at h; simp at h
    | some works =>
      rw [heq] at h
      cases works with
      | nil => simp at h
      | cons w rest =>
        refine ⟨w :: rest, rfl, w, rest, rfl, ?_⟩
        exact scanAuthorships_some_mem w.authorships authorName aff h
  · intro w authorName h
    exact scanAuthorships_none w.authorships authorName h

/-- C10.  The extractor maps every failure to an empty result instead of
raising: an unconfigured client, a thrown model call, a response without
content, and a JSON parse failing even after the recovery ladder all yield
the empty list. -/
theorem c10_extractor_never_throws (env : LLMEnv) (fullText : Str) :
    (env.configured = false → extractAllReferencesWithLLM env fullText = [])
    ∧ (∀ e, extractOnce env fullText = .error e → fullText.length ≤ 15000 →
        extractAllReferencesWithLLM env fullText = [])
    ∧ (∀ e, fullText.length ≤ 15000 → env.complete fullText = .error e →
        extractAllReferencesWithLLM env fullText = [])
    ∧ (fullText.length ≤ 15000 → env.complete fullText = .ok none →
        extractAllReferencesWithLLM env fullText = [])
    ∧ (∀ content, fullText.length ≤ 15000 → env.complete fullText = .ok (some content) →
        parseLadder env content = none → extractAllReferencesWithLLM env fullText = []) := by
  have hcore : ∀ e, extractOnce env fullText = .error e → fullText.length ≤ 15000 →
      extractAllReferencesWithLLM env fullText = [] := by
    intro e herr hlen
    rw [extractAllReferencesWithLLM]
    by_cases hc : env.configured = false
    · rw [if_pos hc]
    · rw [if_neg hc, dif_neg (by omega), herr]
  refine ⟨?_, hcore, ?_, ?_, ?_⟩
  · intro hc
    rw [extractAllReferencesWithLLM, if_pos hc]
  · intro e hlen hcomp
    refine hcore e ?_ hlen
    unfold extractOnce
    rw [hcomp]
  · intro hlen hcomp
    refine hcore (str ("No response from LLM")) ?_ hlen
    unfold extractOnce
    rw [hcomp]
  · intro content hlen hcomp hparse
    refine hcore (str ("Invalid JSON response from LLM (tried recovery)")) ?_ hlen
    unfold extractOnce
    rw [hcomp]
    simp only []
    rw [hparse]

theorem dedupeGo_subset :
    ∀ (l : List ExtractedReference) (seen : List Str) (r : ExtractedReference),
      r ∈ dedupeGo seen l → r ∈ l := by
  intro l
  induction l with
  | nil => intro seen r h; simp [dedupeGo] at h
  | cons a rest ih =>
    intro seen r h
    rw [dedupeGo] at h
    by_cases hs : lowerStr a.citationKey ∈ seen
    · rw [if_pos hs] at h
      exact List.mem_cons_of_mem a (ih seen r h)
    · rw [if_neg hs] at h
      rcases List.mem_cons.mp h with h1 | h2
      · exact h1 ▸ List.mem_cons_self a rest
      · exact List.mem_cons_of_mem a (ih _ r h2)

theorem validFilter_sound (l : List ExtractedReference) (r : ExtractedReference)
    (h : r ∈ validFilter l) :
    r.citationKey ≠ [] ∧ containsSub (lowerStr r.citationKey) (str ("unknown")) = false ∧
      (r.title ≠ [] ∨ r.firstAuthor ≠ []) := by
  have := List.of_mem_filter h
  simp only [isValidRef, Bool.and_eq_true, Bool.or_eq_true, decide_eq_true_eq,
    Bool.not_eq_true'] at this
  tauto

theorem extractOnce_ok_shape (env : LLMEnv) (text : Str) (refs : List ExtractedReference)
    (h : extractOnce env text = .ok refs) : ∃ arr, refs = validFilter arr := by
  unfold extractOnce at h
  cases hc : env.complete text with
  | error e => rw [hc] at h; simp at h
  | ok oc =>
    rw [hc] at h
    cases oc with
    | none => simp at h
    | some content =>
      simp only [] at h
      cases hp : parseLadder env content with
      | none => rw [hp] at h; simp at h
      | some parsed =>
        rw [hp] at h
        simp only [] at h
        cases ha : refArray parsed with
        | none => rw [ha] at h; simp at h
        | some arr =>
          rw [ha] at h
          simp only [Except.ok.injEq] at h
          exact ⟨mapRawList arr, h.symm⟩

theorem extractAll_valid :
    ∀ (env : LLMEnv) (fullText : Str) (r : ExtractedReference),
      r ∈ extractAllReferencesWithLLM env fullText →
      r.citationKey ≠ [] ∧ containsSub (lowerStr r.citationKey) (str ("unknown")) = false ∧
        (r.title ≠ [] ∨ r.firstAuthor ≠ []) := by
  have main : ∀ (n : Nat) (fullText : Str), fullText.length ≤ n → ∀ (env : LLMEnv) r,
      r ∈ extractAllReferencesWithLLM env fullText →
      r.citationKey ≠ [] ∧ containsSub (lowerStr r.citationKey) (str ("unknown")) = false ∧
        (r.title ≠ [] ∨ r.firstAuthor ≠ []) := by
    intro n
    induction n with
    | zero =>
      intro fullText hlen env r hr
      rw [extractAllReferencesWithLLM] at hr
      by_cases hc : env.configured = false
      · rw [if_pos hc] at hr; simp at hr
      · rw [if_neg hc, dif_neg (by omega)] at hr
        cases ho : extractOnce env fullText with
        | error e => rw [ho] at hr; simp at hr
        | ok refs =>
          rw [ho] at hr
          obtain ⟨arr, rfl⟩ := extractOnce_ok_shape env fullText refs ho
          exact validFilter_sound arr r hr
    | succ n ih =>
      intro fullText hlen env r hr
      rw [extractAllReferencesWithLLM] at hr
      by_cases hc : env.configured = false
      · rw [if_pos hc] at hr; simp at hr
      · rw [if_neg hc] at hr
        by_cases hbig : 15000 < fullText.length
        · rw [dif_pos hbig] at hr
          have hr2 := dedupeGo_subset _ _ _ hr
          rw [List.mem_flatten] at hr2
          obtain ⟨chunkRes, hchunkRes, hrin⟩ := hr2
          rw [List.mem_map] at hchunkRes
          obtain ⟨c, hcmem, rfl⟩ := hchunkRes
          have hclen := (chunk_len_bounds fullText 15000 (by omega) hbig c.1 c.2).2
          exact ih c.1 (by omega) env r hrin
        · rw [dif_neg hbig] at hr
          cases ho : extractOnce env fullText with
          | error e => rw [ho] at hr; simp at hr
          | ok refs =>
            rw [ho] at hr
            obtain ⟨arr, rfl⟩ := extractOnce_ok_shape env fullText refs ho
            exact validFilter_sound arr r hr
  intro env fullText r hr
  exact main fullText.length fullText (le_refl _) env r hr

theorem mem_foldl_mergeStep :
    ∀ (l : List ExtractedReference) (st : MergeState) (r : ExtractedReference),
      r ∈ (l.foldl mergeStep st).refs → r ∈ st.refs ∨ r ∈ l := by
  intro l
  induction l with
  | nil => intro st r h; exact Or.inl h
  | cons a rest ih =>
    intro st r h
    rw [List.foldl_cons] at h
    rcases ih (mergeStep st a) r h with hst | hrest
    · unfold mergeStep at hst
      by_cases hd : isDupAgainst st.keys st.raws a = true
      · rw [if_pos hd] at hst
        exact Or.inl hst
      · rw [if_neg hd] at hst
        simp only [] at hst
        rcases List.mem_append.mp hst with h1 | h2
        · exact Or.inl h1
        · simp at h2
          exact Or.inr (h2 ▸ List.mem_cons_self a rest)
    · exact Or.inr (List.mem_cons_of_mem a hrest)

theorem mem_foldl_guard (P : ExtractedReference → Prop) [DecidablePred P]
    (f : ExtractedReference → Str) :
    ∀ (l : List ExtractedReference) (acc : List Str) (k : Str),
      (k ∈ l.foldl (fun s r => if P r then f r :: s else s) acc ↔
        k ∈ acc ∨ ∃ e ∈ l, P e ∧ f e = k) := by
  intro l
  induction l with
  | nil => intro acc k; simp
  | cons a rest ih =>
    intro acc k
    rw [List.foldl_cons]
    rw [ih]
    by_cases hp : P a
    · rw [if_pos hp]
      constructor
      · rintro (h1 | h3)
        · rcases List.mem_cons.mp h1 with rfl | h2
          · exact Or.inr ⟨a, List.mem_cons_self a rest, hp, rfl⟩
          · exact Or.inl h2
        · obtain ⟨e, he, hpe, hfe⟩ := h3
          exact Or.inr ⟨e, List.mem_cons_of_mem a he, hpe, hfe⟩
      · rintro (h1 | ⟨e, he, hpe, hfe⟩)
        · exact Or.inl (List.mem_cons_of_mem _ h1)
        · rcases List.mem_cons.mp he with rfl | he2
          · exact Or.inl (hfe ▸ List.mem_cons_self _ _)
          · exact Or.inr ⟨e, he2, hpe, hfe⟩
    · rw [if_neg hp]
      constructor
      · rintro (h1 | ⟨e, he, hpe, hfe⟩)
        · exact Or.inl h1
        · exact Or.inr ⟨e, List.mem_cons_of_mem a he, hpe, hfe⟩
      · rintro (h1 | ⟨e, he, hpe, hfe⟩)
        · exact Or.inl h1
        · rcases List.mem_cons.mp he with rfl | he2
          · exact absurd hpe hp
          · exact Or.inr ⟨e, he2, hpe, hfe⟩

theorem mem_initKeys (existing : List ExtractedReference) (k : Str) :
    k ∈ initKeys existing ↔
      ∃ e ∈ existing, e.citationKey ≠ [] ∧ lowerStr e.citationKey = k := by
  unfold initKeys
  rw [mem_foldl_guard (fun r => r.citationKey ≠ []) (fun r => lowerStr r.citationKey)]
  simp

theorem mem_initRaws (existing : List ExtractedReference) (k : Str) :
    k ∈ initRaws existing ↔
      ∃ e ∈ existing, e.referenceRaw ≠ [] ∧ normalizeText e.referenceRaw = k := by
  unfold initRaws
  rw [mem_foldl_guard (fun r => r.referenceRaw ≠ []) (fun r => normalizeText r.referenceRaw)]
  simp

def stateInv (st : MergeState) : Prop :=
  (∀ k, k ∈ st.keys ↔ ∃ e ∈ st.refs, e.citationKey ≠ [] ∧ lowerStr e.citationKey = k) ∧
  (∀ k, k ∈ st.raws ↔ ∃ e ∈ st.refs, e.referenceRaw ≠ [] ∧ normalizeText e.referenceRaw = k)

theorem stateInv_init (existing : List ExtractedReference) :
    stateInv { refs := existing, keys := initKeys existing, raws := initRaws existing,
               added := 0, duplicates := 0 } :=
  ⟨fun k => mem_initKeys existing k, fun k => mem_initRaws existing k⟩

theorem stateInv_step (st : MergeState) (r : ExtractedReference) (h : stateInv st) :
    stateInv (mergeStep st r) := by
  unfold mergeStep
  by_cases hd : isDupAgainst st.keys st.raws r = true
  · rw [if_pos hd]
    exact h
  · rw [if_neg hd]
    constructor
    · intro k
      simp only []
      by_cases hk : r.citationKey ≠ []
      · rw [if_pos hk]
        rw [List.mem_cons, h.1 k]
        constructor
        · rintro (rfl | ⟨e, he, hne, hfe⟩)
          · exact ⟨r, List.mem_append.mpr (Or.inr (List.mem_singleton.mpr rfl)), hk, rfl⟩
          · exact ⟨e, List.mem_append.mpr (Or.inl he), hne, hfe⟩
        · rintro ⟨e, he, hne, hfe⟩
          rcases List.mem_append.mp he with he2 | he3
          · exact Or.inr ⟨e, he2, hne, hfe⟩
          · rw [List.mem_singleton.mp he3] at hfe
            exact Or.inl hfe.symm
      · rw [if_neg hk]
        rw [h.1 k]
        constructor
        · rintro ⟨e, he, hne, hfe⟩
          exact ⟨e, List.mem_append.mpr (Or.inl he), hne, hfe⟩
        · rintro ⟨e, he, hne, hfe⟩
          rcases List.mem_append.mp he with he2 | he3
          · exact ⟨e, he2, hne, hfe⟩
          · rw [List.mem_singleton.mp he3] at hne
            exact absurd hne (by simpa using hk)
    · intro k
      simp only []
      by_cases hk : r.referenceRaw ≠ []
      · rw [if_pos hk]
        rw [List.mem_cons, h.2 k]
        constructor
        · rintro (rfl | ⟨e, he, hne, hfe⟩)
          · exact ⟨r, List.mem_append.mpr (Or.inr (List.mem_singleton.mpr rfl)), hk, rfl⟩
          · exact ⟨e, List.mem_append.mpr (Or.inl he), hne, hfe⟩
        · rintro ⟨e, he, hne, hfe⟩
          rcases List.mem_append.mp he with he2 | he3
          · exact Or.inr ⟨e, he2, hne, hfe⟩
          · rw [List.mem_singleton.mp he3] at hfe
            exact Or.inl hfe.symm
      · rw [if_neg hk]
        rw [h.2 k]
        constructor
        · rintro ⟨e, he, hne, hfe⟩
          exact ⟨e, List.mem_append.mpr (Or.inl he), hne, hfe⟩
        · rintro ⟨e, he, hne, hfe⟩
          rcases List.mem_append.mp he with he2 | he3
          · exact ⟨e, he2, hne, hfe⟩
          · rw [List.mem_singleton.mp he3] at hne
            exact absurd hne (by simpa using hk)

theorem stateInv_fold :
    ∀ (l : List ExtractedReference) (st : MergeState), stateInv st →
      stateInv (l.foldl mergeStep st) := by
  intro l
  induction l with
  | nil => intro st h; exact h
  | cons a rest ih =>
    intro st h
    rw [List.foldl_cons]
    exact ih (mergeStep st a) (stateInv_step st a h)

theorem mergeStep_sets_mono (st : MergeState) (r : ExtractedReference) :
    (∀ k ∈ st.keys, k ∈ (mergeStep st r).keys) ∧
    (∀ k ∈ st.raws, k ∈ (mergeStep st r).raws) := by
  unfold mergeStep
  by_cases hd : isDupAgainst st.keys st.raws r = true
  · rw [if_pos hd]
    exact ⟨fun k hk => hk, fun k hk => hk⟩
  · rw [if_neg hd]
    constructor
    · intro k hk
      simp only []
      split
      · exact List.mem_cons_of_mem _ hk
      · exact hk
    · intro k hk
      simp only []
      split
      · exact List.mem_cons_of_mem _ hk
      · exact hk

theorem fold_sets_mono :
    ∀ (l : List ExtractedReference) (st : MergeState),
      (∀ k ∈ st.keys, k ∈ (l.foldl mergeStep st).keys) ∧
      (∀ k ∈ st.raws, k ∈ (l.foldl mergeStep st).raws) := by
  intro l
  induction l with
  | nil => intro st; exact ⟨fun k hk => hk, fun k hk => hk⟩
  | cons a rest ih =>
    intro st
    rw [List.foldl_cons]
    constructor
    · intro k hk
      exact (ih (mergeStep st a)).1 k ((mergeStep_sets_mono st a).1 k hk)
    · intro k hk
      exact (ih (mergeStep st a)).2 k ((mergeStep_sets_mono st a).2 k hk)

theorem isDupAgainst_mono (keys raws keys2 raws2 : List Str) (r : ExtractedReference)
    (hk : ∀ k ∈ keys, k ∈ keys2) (hr : ∀ k ∈ raws, k ∈ raws2)
    (h : isDupAgainst keys raws r = true) : isDupAgainst keys2 raws2 r = true := by
  simp only [isDupAgainst, Bool.or_eq_true, Bool.and_eq_true, decide_eq_true_eq] at h ⊢
  rcases h with ⟨h1, h2⟩ | ⟨h1, h2⟩
  · exact Or.inl ⟨h1, hk _ h2⟩
  · exact Or.inr ⟨h1, hr _ h2⟩

theorem fold_added_mono :
    ∀ (l : List ExtractedReference) (st : MergeState),
      st.added ≤ (l.foldl mergeStep st).added := by
  intro l
  induction l with
  | nil => intro st; exact le_refl _
  | cons a rest ih =>
    intro st
    rw [List.foldl_cons]
    refine le_trans ?_ (ih (mergeStep st a))
    unfold mergeStep
    split
    · exact le_refl _
    · exact Nat.le_succ _

theorem fold_added_pos :
    ∀ (l : List ExtractedReference) (st : MergeState),
      (∃ r ∈ l, isDupAgainst st.keys st.raws r = false) →
      st.added < (l.foldl mergeStep st).added := by
  intro l
  induction l with
  | nil => rintro st ⟨r, hr, _⟩; simp at hr
  | cons a rest ih =>
    rintro st ⟨r, hr, hdup⟩
    rw [List.foldl_cons]
    by_cases hd : isDupAgainst st.keys st.raws a = true
    · have hstep : mergeStep st a = { st with duplicates := st.duplicates + 1 } := by
        unfold mergeStep; rw [if_pos hd]
      rcases List.mem_cons.mp hr with rfl | hr2
      · rw [hd] at hdup; cases hdup
      · have : ∃ r ∈ rest, isDupAgainst (mergeStep st a).keys (mergeStep st a).raws r = false := by
        -- sets of the duplicate step are unchanged
          exact ⟨r, hr2, by rw [hstep]; exact hdup⟩
        have := ih (mergeStep st a) this
        rw [hstep] at this ⊢
        simpa using this
    · have hstep : (mergeStep st a).added = st.added + 1 := by
        unfold mergeStep; rw [if_neg hd]
      have := fold_added_mono rest (mergeStep st a)
      omega

theorem fold_all_dup :
    ∀ (l : List ExtractedReference) (st : MergeState),
      (∀ r ∈ l, isDupAgainst st.keys st.raws r = true) →
      l.foldl mergeStep st = { st with duplicates := st.duplicates + l.length } := by
  intro l
  induction l with
  | nil => intro st _; simp
  | cons a rest ih =>
    intro st h
    rw [List.foldl_cons]
    have hstep : mergeStep st a = { st with duplicates := st.duplicates + 1 } := by
      unfold mergeStep; rw [if_pos (h a (List.mem_cons_self a rest))]
    rw [hstep]
    rw [ih { st with duplicates := st.duplicates + 1 }
      (fun r hr => h r (List.mem_cons_of_mem a hr))]
    simp only [List.length_cons]
    congr 1
    omega

theorem isDup_init_iff (existing : List ExtractedReference) (r : ExtractedReference) :
    isDupAgainst (initKeys existing) (initRaws existing) r = true ↔ dupOfStore existing r := by
  simp only [isDupAgainst, dupOfStore, Bool.or_eq_true, Bool.and_eq_true, decide_eq_true_eq]
  rw [mem_initKeys, mem_initRaws]

theorem isDup_of_inv_transfer (st1 st2 : MergeState) (r : ExtractedReference)
    (h1 : stateInv st1) (h2 : stateInv st2) (hrefs : st1.refs = st2.refs)
    (h : isDupAgainst st1.keys st1.raws r = true) :
    isDupAgainst st2.keys st2.raws r = true := by
  simp only [isDupAgainst, Bool.or_eq_true, Bool.and_eq_true, decide_eq_true_eq] at h ⊢
  rcases h with ⟨ha, hb⟩ | ⟨ha, hb⟩
  · refine Or.inl ⟨ha, ?_⟩
    rw [(h2.1 _)]
    rw [(h1.1 _)] at hb
    rw [← hrefs]
    exact hb
  · refine Or.inr ⟨ha, ?_⟩
    rw [(h2.2 _)]
    rw [(h1.2 _)] at hb
    rw [← hrefs]
    exact hb

theorem fold_covers :
    ∀ (l : List ExtractedReference) (st : MergeState), stateInv st →
      ∀ r ∈ l, (r.citationKey ≠ [] ∨ r.referenceRaw ≠ []) →
        isDupAgainst (l.foldl mergeStep st).keys (l.foldl mergeStep st).raws r = true := by
  intro l
  induction l with
  | nil => intro st _ r hr; simp at hr
  | cons a rest ih =>
    intro st hinv r hr hne
    rw [List.foldl_cons]
    rcases List.mem_cons.mp hr with rfl | hr2
    · by_cases hd : isDupAgainst st.keys st.raws r = true
      · -- the head was already a duplicate of the running sets; sets only grow
        refine isDupAgainst_mono st.keys st.raws _ _ r ?_ ?_ hd
        · intro k hk
          exact (fold_sets_mono rest (mergeStep st r)).1 k ((mergeStep_sets_mono st r).1 k hk)
        · intro k hk
          exact (fold_sets_mono rest (mergeStep st r)).2 k ((mergeStep_sets_mono st r).2 k hk)
      · -- the head was appended: its identifier went into the sets of the next state
        have hstep : (mergeStep st r).keys = (if r.citationKey ≠ [] then lowerStr r.citationKey :: st.keys else st.keys) ∧
            (mergeStep st r).raws = (if r.referenceRaw ≠ [] then normalizeText r.referenceRaw :: st.raws else st.raws) := by
          unfold mergeStep
          rw [if_neg hd]
          exact ⟨rfl, rfl⟩
        rcases hne with hk | hraw
        · have hmem : lowerStr r.citationKey ∈ (mergeStep st r).keys := by
            rw [hstep.1, if_pos hk]
            exact List.mem_cons_self _ _
          have hfinal : lowerStr r.citationKey ∈ (rest.foldl mergeStep (mergeStep st r)).keys :=
            (fold_sets_mono rest (mergeStep st r)).1 _ hmem
          simp only [isDupAgainst, Bool.or_eq_true, Bool.and_eq_true, decide_eq_true_eq]
          exact Or.inl ⟨hk, hfinal⟩
        · have hmem : normalizeText r.referenceRaw ∈ (mergeStep st r).raws := by
            rw [hstep.2, if_pos hraw]
            exact List.mem_cons_self _ _
          have hfinal : normalizeText r.referenceRaw ∈ (rest.foldl mergeStep (mergeStep st r)).raws :=
            (fold_sets_mono rest (mergeStep st r)).2 _ hmem
          simp only [isDupAgainst, Bool.or_eq_true, Bool.and_eq_true, decide_eq_true_eq]
          exact Or.inr ⟨hraw, hfinal⟩
    · exact ih (mergeStep st a) (stateInv_step st a hinv) r hr2 hne

/-- C2 (amended).  For every store and non-empty record list in which every
record has a citation key and at least one record is not already a duplicate
of the store, merging adds at least one record; merging the identical list a
second time adds nothing, reports every record as a duplicate, and leaves the
stored collection (hence the total) unchanged; and a single record is
reported as a duplicate exactly when its citation key matches a stored one up
to letter case or its normalized raw text matches a stored one. -/
theorem c2_merge_idempotence (existing newRefs : List ExtractedReference)
    (hne : newRefs ≠ [])
    (hkeys : ∀ r ∈ newRefs, r.citationKey ≠ [])
    (hfresh : ∃ r ∈ newRefs, ¬ dupOfStore existing r) :
    0 < (addToMasterTable existing newRefs).added ∧
    (addToMasterTable (addToMasterTable existing newRefs).refs newRefs).added = 0 ∧
    (addToMasterTable (addToMasterTable existing newRefs).refs newRefs).duplicates =
      newRefs.length ∧
    (addToMasterTable (addToMasterTable existing newRefs).refs newRefs).refs =
      (addToMasterTable existing newRefs).refs ∧
    (∀ r, (addToMasterTable existing [r]).duplicates = 1 ↔ dupOfStore existing r) := by
  have hinit1 := stateInv_init existing
  have hS1 : stateInv (addToMasterTable existing newRefs) := by
    unfold addToMasterTable
    exact stateInv_fold newRefs _ hinit1
  have hinit2 := stateInv_init (addToMasterTable existing newRefs).refs
  have halldup : ∀ r ∈ newRefs,
      isDupAgainst (initKeys (addToMasterTable existing newRefs).refs)
        (initRaws (addToMasterTable existing newRefs).refs) r = true := by
    intro r hr
    have hcov : isDupAgainst (addToMasterTable existing newRefs).keys
        (addToMasterTable existing newRefs).raws r = true := by
      unfold addToMasterTable
      exact fold_covers newRefs _ hinit1 r hr (Or.inl (hkeys r hr))
    exact isDup_of_inv_transfer (addToMasterTable existing newRefs)
      { refs := (addToMasterTable existing newRefs).refs
        keys := initKeys (addToMasterTable existing newRefs).refs
        raws := initRaws (addToMasterTable existing newRefs).refs
        added := 0, duplicates := 0 } r hS1 hinit2 rfl hcov
  have hsecond : addToMasterTable (addToMasterTable existing newRefs).refs newRefs =
      { refs := (addToMasterTable existing newRefs).refs
        keys := initKeys (addToMasterTable existing newRefs).refs
        raws := initRaws (addToMasterTable existing newRefs).refs
        added := 0, duplicates := 0 + newRefs.length } := by
    unfold addToMasterTable
    exact fold_all_dup newRefs _ halldup
  refine ⟨?_, ?_, ?_, ?_, ?_⟩
  · obtain ⟨r, hr, hnd⟩ := hfresh
    have hfalse : isDupAgainst (initKeys existing) (initRaws existing) r = false := by
      rw [← Bool.not_eq_true]
      intro hcontra
      exact hnd ((isDup_init_iff existing r).mp hcontra)
    have := fold_added_pos newRefs
      { refs := existing, keys := initKeys existing, raws := initRaws existing,
        added := 0, duplicates := 0 } ⟨r, hr, hfalse⟩
    unfold addToMasterTable
    simpa using this
  · rw [hsecond]
  · rw [hsecond]; simp
  · rw [hsecond]
  · intro r
    unfold addToMasterTable
    rw [List.foldl_cons, List.foldl_nil]
    unfold mergeStep
    by_cases hd : dupOfStore existing r
    · rw [if_pos ((isDup_init_iff existing r).mpr hd)]
      simpa using hd
    · rw [if_neg (fun hcontra => hd ((isDup_init_iff existing r).mp hcontra))]
      simp only []
      constructor
      · intro h01; exact absurd h01 (by simp)
      · intro h; exact absurd h hd


/-- C2 counterexample.  When the store already holds the incoming record,
the first merge call reports added = 0, refuting the claim that the first
call always yields added greater than zero. -/
theorem c2_merge_idempotence_counterexample :
    recA.citationKey ≠ [] ∧ ([recA] : List ExtractedReference) ≠ [] ∧
    (addToMasterTable [recA] [recA]).added = 0 ∧
    (addToMasterTable [recA] [recA]).duplicates = 1 := by
  decide

/-- C2 witness: the theorem applied to an empty store and the one-record
list. -/
theorem c2_merge_idempotence_witness :
    0 < (addToMasterTable [] [recA]).added ∧
    (addToMasterTable (addToMasterTable [] [recA]).refs [recA]).added = 0 ∧
    (addToMasterTable (addToMasterTable [] [recA]).refs [recA]).duplicates = 1 := by
  have h := c2_merge_idempotence [] [recA] (by simp) (by decide)
    ⟨recA, by simp, by decide⟩
  exact ⟨h.1, h.2.1, h.2.2.1⟩

theorem frameEq_refl (a : ExtractedReference) : frameEq a a := by
  unfold frameEq
  repeat constructor

theorem frameEq_set (a b : ExtractedReference) (aff : Str) (h : frameEq a b) :
    frameEq { a with firstAuthorAffiliation := some aff } b := by
  unfold frameEq at h ⊢
  exact h

theorem setAffiliation_forall2 (refs master : List ExtractedReference) (i : Nat) (aff : Str)
    (h : List.Forall₂ frameEq refs master) :
    List.Forall₂ frameEq (setAffiliation refs i aff) master := by
  unfold setAffiliation
  cases hg : refs[i]? with
  | none => exact h
  | some r =>
    rw [List.forall₂_iff_get] at h ⊢
    obtain ⟨hlen, hget⟩ := h
    refine ⟨by simpa using hlen, ?_⟩
    intro j h1 h2
    have hjlen : j < refs.length := by simpa using h1
    by_cases hij : i = j
    · subst hij
      have hival : refs.get ⟨i, hjlen⟩ = r := by
        have := List.getElem?_eq_getElem hjlen
        rw [hg] at this
        simpa using this.symm
      have hset : (refs.set i { r with firstAuthorAffiliation := some aff }).get ⟨i, h1⟩ =
          { r with firstAuthorAffiliation := some aff } := by
        simp [List.getElem_set_self, hjlen]
      rw [hset]
      refine frameEq_set r _ aff ?_
      have := hget i hjlen h2
      rwa [hival] at this
    · have hset : (refs.set i { r with firstAuthorAffiliation := some aff }).get ⟨j, h1⟩ =
          refs.get ⟨j, hjlen⟩ := by
        simp [List.getElem_set_ne hij]
      rw [hset]
      exact hget j hjlen h2

theorem enhanceStep_forall2 (resolve : Str → Str → Str → AffiliationResult)
    (master : List ExtractedReference) (st : List ExtractedReference × Nat)
    (ref : ExtractedReference) (h : List.Forall₂ frameEq st.1 master) :
    List.Forall₂ frameEq (enhanceStep resolve st ref).1 master := by
  unfold enhanceStep
  cases heq : jsStrHit (resolve ref.firstAuthor ref.title ref.year).affiliation with
  | none => exact h
  | some aff =>
    simp only []
    cases hidx : st.1.findIdx? (fun r => decide (r.citationKey ≠ [] ∧ ref.citationKey ≠ [] ∧
        r.citationKey = ref.citationKey)) with
    | none => exact h
    | some i => exact setAffiliation_forall2 st.1 master i aff h

theorem foldl_enhance_forall2 (resolve : Str → Str → Str → AffiliationResult)
    (master : List ExtractedReference) :
    ∀ (needs : List ExtractedReference) (st : List ExtractedReference × Nat),
      List.Forall₂ frameEq st.1 master →
      List.Forall₂ frameEq (needs.foldl (enhanceStep resolve) st).1 master := by
  intro needs
  induction needs with
  | nil => intro st h; exact h
  | cons a rest ih =>
    intro st h
    rw [List.foldl_cons]
    exact ih (enhanceStep resolve st a) (enhanceStep_forall2 resolve master st a h)

/-- C9.  Whatever collection an enhancement run saves is related record by
record, in order and number, to the loaded collection by equality of every
field except firstAuthorAffiliation. -/
theorem c9_enhancement_frame (resolve : Str → Str → Str → AffiliationResult)
    (master finalRefs : List ExtractedReference)
    (h : (processEnhancement resolve master).saved = some finalRefs) :
    List.Forall₂ frameEq finalRefs master := by
  unfold processEnhancement at h
  by_cases h0 : master.length = 0
  · rw [if_pos h0] at h
    simp at h
  · rw [if_neg h0] at h
    by_cases hempty : (needsEnhancementFilter master).isEmpty
    · rw [if_pos hempty] at h
      simp at h
    · rw [if_neg hempty] at h
      simp only [Option.some.injEq] at h
      subst h
      exact foldl_enhance_forall2 resolve master (needsEnhancementFilter master) (master, 0)
        (List.forall₂_same.mpr (fun x _ => frameEq_refl x))








theorem findNN_replicate_none : ∀ n : Nat, findNN (List.replicate n 'a') = none := by
  intro n
  induction n with
  | zero => rfl
  | succ m ih =>
    cases m with
    | zero => rfl
    | succ k =>
      show findNN ('a' :: 'a' :: List.replicate k 'a') = none
      rw [findNN, if_neg (by decide)]
      have h2 : ('a' :: List.replicate k 'a') = List.replicate (k + 1) 'a' :=
        (List.replicate_succ _ _).symm
      rw [h2, ih]
      rfl

theorem findNN_replicate_nn :
    ∀ (n : Nat) (rest : Str),
      findNN (List.replicate n 'a' ++ '\n' :: '\n' :: rest) = some n := by
  intro n
  induction n with
  | zero =>
    intro rest
    show findNN ('\n' :: '\n' :: rest) = some 0
    rw [findNN, if_pos ⟨rfl, rfl⟩]
  | succ m ih =>
    intro rest
    cases m with
    | zero =>
      show findNN ('a' :: '\n' :: '\n' :: rest) = some 1
      rw [findNN, if_neg (by decide)]
      rw [findNN, if_pos ⟨rfl, rfl⟩]
      rfl
    | succ k =>
      show findNN ('a' :: 'a' :: (List.replicate k 'a' ++ '\n' :: '\n' :: rest)) = some (k + 2)
      rw [findNN, if_neg (by decide)]
      have h2 : ('a' :: (List.replicate k 'a' ++ '\n' :: '\n' :: rest)) =
          List.replicate (k + 1) 'a' ++ '\n' :: '\n' :: rest := by
        rw [List.replicate_succ, List.cons_append]
      rw [h2, ih]
      rfl

theorem strLeads_nn_replicate : ∀ n : Nat, strLeads nnStr (List.replicate n 'a') = false := by
  intro n
  cases n with
  | zero => rfl
  | succ m =>
    rw [List.replicate_succ]
    simp [nnStr, strLeads]

-- evaluation helper lemmas for nextEnd and chunkLoop
theorem nextEnd_eval_found (t : Str) (cs cp nb : Nat)
    (hlt : idealEnd t cs cp < t.length)
    (hfind : indexOfNNFrom t ((idealEnd t cs cp : Int) - 500) = some nb)
    (hcond : (idealEnd t cs cp : Int) - 500 < (nb : Int) ∧
      (nb : Int) < (idealEnd t cs cp : Int) + 500) :
    nextEnd t cs cp = nb := by
  unfold nextEnd
  rw [if_pos hlt, hfind]
  simp only []
  rw [if_pos hcond]

theorem nextEnd_eval_reject (t : Str) (cs cp nb : Nat)
    (hlt : idealEnd t cs cp < t.length)
    (hfind : indexOfNNFrom t ((idealEnd t cs cp : Int) - 500) = some nb)
    (hcond : ¬ ((idealEnd t cs cp : Int) - 500 < (nb : Int) ∧
      (nb : Int) < (idealEnd t cs cp : Int) + 500)) :
    nextEnd t cs cp = idealEnd t cs cp := by
  unfold nextEnd
  rw [if_pos hlt, hfind]
  simp only []
  rw [if_neg hcond]

theorem nextEnd_eval_none (t : Str) (cs cp : Nat)
    (hlt : idealEnd t cs cp < t.length)
    (hfind : indexOfNNFrom t ((idealEnd t cs cp : Int) - 500) = none) :
    nextEnd t cs cp = idealEnd t cs cp := by
  unfold nextEnd
  rw [if_pos hlt, hfind]

theorem nextEnd_eval_full (t : Str) (cs cp : Nat)
    (hge : ¬ idealEnd t cs cp < t.length) :
    nextEnd t cs cp = idealEnd t cs cp := by
  unfold nextEnd
  rw [if_neg hge]

theorem chunkLoop_step (t : Str) (cs cp : Nat) (h : cp < t.length)
    (hp : cp < nextEnd t cs cp) :
    chunkLoop t cs cp = jsSubstring t cp (nextEnd t cs cp) :: chunkLoop t cs (nextEnd t cs cp) := by
  rw [chunkLoop, dif_pos h, dif_pos hp]

theorem chunkLoop_done (t : Str) (cs cp : Nat) (h : ¬ cp < t.length) :
    chunkLoop t cs cp = [] := by
  rw [chunkLoop, dif_neg h]

theorem c1text1_len : c1text1.length = 15200 := by
  unfold c1text1 nnStr
  simp only [List.length_append, List.length_replicate, List.length_cons, List.length_nil]

theorem c1text2_len : c1text2.length = 15102 := by
  unfold c1text2 nnStr
  simp only [List.length_append, List.length_replicate, List.length_cons, List.length_nil]

theorem c1text1_drop : c1text1.drop 14500 =
    List.replicate 550 'a' ++ '\n' :: '\n' :: List.replicate 148 'a' := by
  unfold c1text1 nnStr
  rw [List.append_assoc]
  rw [List.drop_append_of_le_length (by rw [List.length_replicate]; norm_num)]
  rw [List.drop_replicate]
  norm_num

theorem c1text1_ideal0 : idealEnd c1text1 15000 0 = 15000 := by
  unfold idealEnd
  rw [c1text1_len]
  omega

theorem c1text1_next0 : nextEnd c1text1 15000 0 = 15050 := by
  have hfind : indexOfNNFrom c1text1 ((idealEnd c1text1 15000 0 : Int) - 500) = some 15050 := by
    rw [c1text1_ideal0]
    unfold indexOfNNFrom
    have ht : ((15000 : Nat) : Int) - 500 = (14500 : Int) := by norm_num
    rw [ht]
    have htn : (14500 : Int).toNat = 14500 := rfl
    rw [htn, c1text1_drop, findNN_replicate_nn]
    rfl
  refine nextEnd_eval_found c1text1 15000 0 15050 (by rw [c1text1_ideal0, c1text1_len]; norm_num)
    hfind ?_
  rw [c1text1_ideal0]
  constructor <;> norm_num

theorem c1text1_next1 : nextEnd c1text1 15000 15050 = 15200 := by
  have hideal : idealEnd c1text1 15000 15050 = 15200 := by
    unfold idealEnd
    rw [c1text1_len]
    omega
  rw [nextEnd_eval_full c1text1 15000 15050 (by rw [hideal, c1text1_len]; omega), hideal]

theorem c1text1_chunk0 : jsSubstring c1text1 0 15050 = List.replicate 15050 'a' := by
  unfold jsSubstring c1text1
  rw [List.drop_zero, List.append_assoc]
  rw [List.take_append_of_le_length (by rw [List.length_replicate])]
  rw [List.take_replicate]
  norm_num

theorem c1text1_chunk1 : jsSubstring c1text1 15050 15200 =
    nnStr ++ List.replicate 148 'a' := by
  unfold jsSubstring
  rw [List.take_of_length_le (by rw [c1text1_len])]
  unfold c1text1
  rw [List.append_assoc]
  rw [List.drop_append_of_le_length (by rw [List.length_replicate])]
  rw [List.drop_replicate]
  norm_num

theorem chunkify_c1text1 : chunkify c1text1 15000 =
    [List.replicate 15050 'a', nnStr ++ List.replicate 148 'a'] := by
  unfold chunkify
  rw [chunkLoop_step c1text1 15000 0 (by rw [c1text1_len]; omega)
    (by rw [c1text1_next0]; omega)]
  rw [c1text1_next0, c1text1_chunk0]
  rw [chunkLoop_step c1text1 15000 15050 (by rw [c1text1_len]; omega)
    (by rw [c1text1_next1]; omega)]
  rw [c1text1_next1, c1text1_chunk1]
  rw [chunkLoop_done c1text1 15000 15200 (by rw [c1text1_len]; omega)]

-- the oversized first chunk is itself re-chunked
theorem rep15050_next0 : nextEnd (List.replicate 15050 'a') 15000 0 = 15000 := by
  have hideal : idealEnd (List.replicate 15050 'a') 15000 0 = 15000 := by
    unfold idealEnd
    rw [List.length_replicate]
    omega
  have hfind : indexOfNNFrom (List.replicate 15050 'a')
      ((idealEnd (List.replicate 15050 'a') 15000 0 : Int) - 500) = none := by
    rw [hideal]
    unfold indexOfNNFrom
    have ht : (((15000 : Nat) : Int) - 500).toNat = 14500 := rfl
    rw [ht, List.drop_replicate]
    rw [show (15050 - 14500 : Nat) = 550 from rfl]
    rw [findNN_replicate_none]
    rfl
  rw [nextEnd_eval_none (List.replicate 15050 'a') 15000 0
    (by rw [hideal, List.length_replicate]; omega) hfind, hideal]

theorem rep15050_next1 : nextEnd (List.replicate 15050 'a') 15000 15000 = 15050 := by
  have hideal : idealEnd (List.replicate 15050 'a') 15000 15000 = 15050 := by
    unfold idealEnd
    rw [List.length_replicate]
    omega
  rw [nextEnd_eval_full (List.replicate 15050 'a') 15000 15000
    (by rw [hideal, List.length_replicate]; omega), hideal]

theorem chunkify_rep15050 : chunkify (List.replicate 15050 'a') 15000 =
    [List.replicate 15000 'a', List.replicate 50 'a'] := by
  unfold chunkify
  rw [chunkLoop_step (List.replicate 15050 'a') 15000 0 (by rw [List.length_replicate]; omega)
    (by rw [rep15050_next0]; omega)]
  rw [rep15050_next0]
  rw [chunkLoop_step (List.replicate 15050 'a') 15000 15000 (by rw [List.length_replicate]; omega)
    (by rw [rep15050_next1]; omega)]
  rw [rep15050_next1]
  rw [chunkLoop_done (List.replicate 15050 'a') 15000 15050 (by rw [List.length_replicate]; omega)]
  unfold jsSubstring
  rw [List.drop_zero, List.take_replicate,
    List.take_of_length_le (by rw [List.length_replicate]), List.drop_replicate]
  norm_num

theorem llmCallCount_small (t : Str) (h : ¬ 15000 < t.length) : llmCallCount true t = 1 := by
  rw [llmCallCount]
  rw [if_neg (by simp), dif_neg h]

theorem llmCallCount_big (t : Str) (h : 15000 < t.length) :
    llmCallCount true t = ((chunkify t 15000).map (llmCallCount true)).sum := by
  rw [llmCallCount]
  rw [if_neg (by simp), dif_pos h]
  congr 1
  exact List.attach_map_val (chunkify t 15000) (llmCallCount true)

theorem llmCallCount_c1text1 : llmCallCount true c1text1 = 3 := by
  rw [llmCallCount_big c1text1 (by rw [c1text1_len]; omega)]
  rw [chunkify_c1text1]
  rw [List.map_cons, List.map_cons, List.map_nil]
  rw [llmCallCount_big (List.replicate 15050 'a') (by rw [List.length_replicate]; omega)]
  rw [chunkify_rep15050]
  rw [List.map_cons, List.map_cons, List.map_nil]
  rw [llmCallCount_small (List.replicate 15000 'a') (by rw [List.length_replicate]; omega)]
  rw [llmCallCount_small (List.replicate 50 'a') (by rw [List.length_replicate]; omega)]
  rw [llmCallCount_small (nnStr ++ List.replicate 148 'a')
    (by unfold nnStr; simp only [List.length_append, List.length_replicate, List.length_cons,
      List.length_nil]; omega)]
  rfl

theorem c1text2_drop14500 : c1text2.drop 14500 =
    '\n' :: '\n' :: (List.replicate 98 'a' ++ nnStr ++ List.replicate 500 'a') := by
  unfold c1text2 nnStr
  rw [List.append_assoc, List.append_assoc, List.append_assoc]
  rw [List.drop_append_of_le_length (by rw [List.length_replicate])]
  rw [List.drop_replicate]
  norm_num

theorem c1text2_ideal0 : idealEnd c1text2 15000 0 = 15000 := by
  unfold idealEnd
  rw [c1text2_len]
  omega

theorem c1text2_next0 : nextEnd c1text2 15000 0 = 15000 := by
  have hfind : indexOfNNFrom c1text2 ((idealEnd c1text2 15000 0 : Int) - 500) = some 14500 := by
    rw [c1text2_ideal0]
    unfold indexOfNNFrom
    have ht : (((15000 : Nat) : Int) - 500).toNat = 14500 := rfl
    rw [ht, c1text2_drop14500]
    have hf : findNN ('\n' :: '\n' ::
        (List.replicate 98 'a' ++ nnStr ++ List.replicate 500 'a')) = some 0 := by
      rw [findNN, if_pos ⟨rfl, rfl⟩]
    rw [hf]
    rfl
  rw [nextEnd_eval_reject c1text2 15000 0 14500
    (by rw [c1text2_ideal0, c1text2_len]; omega) hfind ?_, c1text2_ideal0]
  rw [c1text2_ideal0]
  intro hcontra
  have h1 := hcontra.1
  norm_num at h1

theorem c1text2_head : (chunkify c1text2 15000).head? = some (jsSubstring c1text2 0 15000) := by
  unfold chunkify
  rw [chunkLoop_step c1text2 15000 0 (by rw [c1text2_len]; omega)
    (by rw [c1text2_next0]; omega)]
  rw [c1text2_next0]
  rfl

theorem c1text2_head_len : (jsSubstring c1text2 0 15000).length = 15000 := by
  rw [jsSubstring_length, c1text2_len]
  omega

theorem c1text2_nn_14600 : hasNNAt c1text2 14600 = true := by
  unfold hasNNAt
  have hsplit : (14600 : Nat) = 14500 + 100 := rfl
  rw [hsplit, ← List.drop_drop, c1text2_drop14500]
  have h2 : List.drop 100 ('\n' :: '\n' ::
      (List.replicate 98 'a' ++ nnStr ++ List.replicate 500 'a')) =
      List.drop 98 (List.replicate 98 'a' ++ nnStr ++ List.replicate 500 'a') := by
    rw [show (100 : Nat) = 99 + 1 from rfl, List.drop_succ_cons,
      show (99 : Nat) = 98 + 1 from rfl, List.drop_succ_cons]
  rw [h2]
  rw [List.append_assoc]
  rw [List.drop_append_of_le_length (by rw [List.length_replicate])]
  rw [List.drop_replicate]
  norm_num
  simp [nnStr, strLeads]

theorem c1text2_nn_15000 : hasNNAt c1text2 15000 = false := by
  unfold hasNNAt
  have hsplit : (15000 : Nat) = 14500 + 500 := rfl
  rw [hsplit, ← List.drop_drop, c1text2_drop14500]
  have h2 : List.drop 500 ('\n' :: '\n' ::
      (List.replicate 98 'a' ++ nnStr ++ List.replicate 500 'a')) =
      List.drop 498 (List.replicate 98 'a' ++ nnStr ++ List.replicate 500 'a') := by
    rw [show (500 : Nat) = 499 + 1 from rfl, List.drop_succ_cons,
      show (499 : Nat) = 498 + 1 from rfl, List.drop_succ_cons]
  rw [h2]
  have h3 : List.drop 498 (List.replicate 98 'a' ++ nnStr ++ List.replicate 500 'a') =
      List.drop 400 (nnStr ++ List.replicate 500 'a') := by
    rw [List.append_assoc]
    rw [show (498 : Nat) = 98 + 400 from rfl, ← List.drop_drop]
    rw [List.drop_append_of_le_length (by rw [List.length_replicate])]
    rw [List.drop_replicate]
    norm_num
  rw [h3]
  have h4 : List.drop 400 (nnStr ++ List.replicate 500 'a') =
      List.drop 398 (List.replicate 500 'a') := by
    unfold nnStr
    rw [List.cons_append, List.cons_append, List.nil_append]
    rw [show (400 : Nat) = 399 + 1 from rfl, List.drop_succ_cons,
      show (399 : Nat) = 398 + 1 from rfl, List.drop_succ_cons]
  rw [h4, List.drop_replicate]
  rw [show (500 - 398 : Nat) = 102 from rfl]
  exact strLeads_nn_replicate 102

theorem chunkLoop_flatten_aux (t : Str) (cs : Nat) (h500 : 500 ≤ cs) :
    ∀ fuel cur, t.length - cur ≤ fuel →
      (chunkLoop t cs cur).flatten = t.drop cur := by
  intro fuel
  induction fuel with
  | zero =>
    intro cur hle
    rw [chunkLoop_done t cs cur (by omega)]
    rw [List.flatten_nil]
    exact (List.drop_eq_nil_of_le (by omega)).symm
  | succ n ih =>
    intro cur hle
    by_cases hcur : cur < t.length
    · have hgt := nextEnd_gt t cs cur h500 hcur
      have hne := nextEnd_le t cs cur
      rw [chunkLoop_step t cs cur hcur hgt]
      rw [List.flatten_cons]
      rw [ih (nextEnd t cs cur) (by omega)]
      unfold jsSubstring
      have hsplit : t = t.take (nextEnd t cs cur) ++ t.drop (nextEnd t cs cur) :=
        (List.take_append_drop _ t).symm
      conv_rhs => rw [hsplit]
      rw [List.drop_append_of_le_length (by rw [List.length_take]; omega)]
    · rw [chunkLoop_done t cs cur hcur]
      rw [List.flatten_nil]
      exact (List.drop_eq_nil_of_le (by omega)).symm

theorem chunkify_flatten (t : Str) (cs : Nat) (h500 : 500 ≤ cs) :
    (chunkify t cs).flatten = t := by
  unfold chunkify
  rw [chunkLoop_flatten_aux t cs h500 t.length 0 (by omega)]
  exact List.drop_zero t

theorem dedupeGo_eq_keepFirst :
    ∀ (l : List ExtractedReference) (seen : List Str),
      dedupeGo seen l =
        keepFirstByKey (l.filter (fun r => lowerStr r.citationKey ∉ seen)) := by
  intro l
  induction l with
  | nil => intro seen; simp [dedupeGo, List.filter_nil, keepFirstByKey]
  | cons r rest ih =>
    intro seen
    rw [dedupeGo]
    by_cases hmem : lowerStr r.citationKey ∈ seen
    · rw [if_pos hmem]
      rw [List.filter_cons_of_neg (by simpa using hmem)]
      exact ih seen
    · rw [if_neg hmem]
      rw [List.filter_cons_of_pos (by simpa using hmem)]
      rw [keepFirstByKey]
      congr 1
      rw [ih (lowerStr r.citationKey :: seen)]
      congr 1
      rw [List.filter_filter]
      apply List.filter_congr
      intro r2 _
      rw [← Bool.decide_and]
      apply decide_eq_decide.mpr
      rw [List.mem_cons]
      tauto

theorem dedupeByKey_eq_keepFirst (l : List ExtractedReference) :
    dedupeByKey l = keepFirstByKey l := by
  unfold dedupeByKey
  rw [dedupeGo_eq_keepFirst l []]
  congr 1
  have : ∀ r ∈ l, (decide (lowerStr r.citationKey ∉ ([] : List Str))) = true := by
    intro r _
    simp
  calc l.filter (fun r => lowerStr r.citationKey ∉ ([] : List Str))
      = l.filter (fun _ => true) := List.filter_congr (by intro r _; simp)
    _ = l := List.filter_true l

/-- C1 (amended).  With a configured client, a text within the 15000
character budget costs exactly one model call; a longer text is split into
nonempty chunks, each strictly shorter than the input, whose concatenation is
the input; it is extracted chunk by chunk through recursive calls whose
results are concatenated and deduplicated by lower-cased citation key keeping
first occurrences; and the total number of model calls is the sum of the
recursive counts over the chunks (a chunk stretched past the budget by a
paragraph break is itself re-chunked, so this can exceed one call per
chunk). -/
theorem c1_extraction_chunking (env : LLMEnv) (fullText : Str) (hconf : env.configured = true) :
    (fullText.length ≤ 15000 → llmCallCount true fullText = 1) ∧
    (15000 < fullText.length →
      (chunkify fullText 15000).flatten = fullText ∧
      (∀ c ∈ chunkify fullText 15000, 0 < c.length ∧ c.length < fullText.length) ∧
      extractAllReferencesWithLLM env fullText =
        dedupeByKey (((chunkify fullText 15000).map (extractAllReferencesWithLLM env)).flatten) ∧
      llmCallCount true fullText = ((chunkify fullText 15000).map (llmCallCount true)).sum) ∧
    (∀ l, dedupeByKey l = keepFirstByKey l) := by
  refine ⟨?_, ?_, dedupeByKey_eq_keepFirst⟩
  · intro hle
    exact llmCallCount_small fullText (by omega)
  · intro hgt
    refine ⟨chunkify_flatten fullText 15000 (by omega),
      chunk_len_bounds fullText 15000 (by omega) hgt, ?_, llmCallCount_big fullText hgt⟩
    rw [extractAllReferencesWithLLM]
    rw [if_neg (by rw [hconf]; simp), dif_pos hgt]
    congr 2
    exact List.attach_map_val _ _

/-- C1 counterexample.  The first text (15200 characters with one paragraph
break at position 15050) is split into two chunks but costs three model
calls, refuting one call per chunk; the second text has a paragraph break at
position 14600, well within 500 characters of the ideal split point 15000,
yet its first chunk ends at the exact budget boundary 15000 (not at any
paragraph break), refuting the break-when-one-exists reading: the break at
exactly 500 before the ideal point is found first and rejected by the strict
window test, masking the nearer one. -/
theorem c1_extraction_chunking_counterexample :
    15000 < c1text1.length ∧
    (chunkify c1text1 15000).length = 2 ∧
    llmCallCount true c1text1 = 3 ∧
    15000 < c1text2.length ∧
    hasNNAt c1text2 14600 = true ∧
    (chunkify c1text2 15000).head?.map List.length = some 15000 ∧
    hasNNAt c1text2 15000 = false := by
  refine ⟨by rw [c1text1_len]; omega, by rw [chunkify_c1text1]; rfl, llmCallCount_c1text1,
    by rw [c1text2_len]; omega, c1text2_nn_14600, ?_, c1text2_nn_15000⟩
  rw [c1text2_head]
  simp only [Option.map_some']
  rw [c1text2_head_len]

/-- C1 witness: the theorem applied at a two-character text and at a
15001-character text. -/
theorem c1_extraction_chunking_witness :
    llmCallCount true (str ("ab")) = 1 ∧
    (chunkify (List.replicate 15001 'a') 15000).flatten = List.replicate 15001 'a' :=
  ⟨(c1_extraction_chunking env0 (str ("ab")) rfl).1 (by decide),
   ((c1_extraction_chunking env0 (List.replicate 15001 'a') rfl).2.1
     (by rw [List.length_replicate]; omega)).1⟩

/-- C3.  Every reference the extractor returns has a nonempty citation key
that does not contain the word unknown in any letter case and has a title or
a first author; the post-filter keeps exactly the entries passing the
validity test; and a record reaching the store through a merge of extractor
output either was already stored or has a title or first author. -/
theorem c3_post_filter_invariant :
    (∀ (env : LLMEnv) (fullText : Str) (r : ExtractedReference),
      r ∈ extractAllReferencesWithLLM env fullText →
      r.citationKey ≠ [] ∧ containsSub (lowerStr r.citationKey) (str ("unknown")) = false ∧
        (r.title ≠ [] ∨ r.firstAuthor ≠ [])) ∧
    (∀ (l : List ExtractedReference) (r : ExtractedReference),
      r ∈ validFilter l ↔ r ∈ l ∧ isValidRef r = true) ∧
    (∀ (existing : List ExtractedReference) (env : LLMEnv) (fullText : Str)
        (r : ExtractedReference),
      r ∈ (addToMasterTable existing (extractAllReferencesWithLLM env fullText)).refs →
      r ∈ existing ∨ (r.title ≠ [] ∨ r.firstAuthor ≠ [])) := by
  refine ⟨extractAll_valid, ?_, ?_⟩
  · intro l r
    simp [validFilter, List.mem_filter]
  · intro existing env fullText r hr
    unfold addToMasterTable at hr
    rcases mem_foldl_mergeStep _ _ r hr with h1 | h2
    · exact Or.inl h1
    · exact Or.inr (extractAll_valid env fullText r h2).2.2

/-- C3 witness: the theorem applied to a concrete environment whose model
answer holds one valid reference. -/
theorem c3_post_filter_invariant_witness :
    (refK.citationKey ≠ [] ∧ containsSub (lowerStr refK.citationKey) (str ("unknown")) = false ∧
      (refK.title ≠ [] ∨ refK.firstAuthor ≠ [])) ∧
    (refK ∈ ([] : List ExtractedReference) ∨ (refK.title ≠ [] ∨ refK.firstAuthor ≠ [])) := by
  have hrun : extractAllReferencesWithLLM env0 (str ("t")) = [refK] := by
    rw [extractAllReferencesWithLLM]
    decide
  constructor
  · exact c3_post_filter_invariant.1 env0 (str ("t")) refK (by rw [hrun]; decide)
  · refine c3_post_filter_invariant.2.2 [] env0 (str ("t")) refK ?_
    rw [hrun]
    decide

/-- C5 witness: the theorem applied at the year 1850 of the specification
example. -/
theorem c5_historical_skip_witness :
    findAffiliation false oracleNone (str ("A")) (str ("T")) (str ("1850")) =
      ({ affiliation := none, confidence := str ("low"),
         source := str ("skipped-historical") }, []) :=
  c5_historical_skip false oracleNone (str ("A")) (str ("T")) (str ("1850")) 1850
    (by decide) (by decide) (by decide) (by decide) (by decide)

/-- C6 witness: the theorem applied to a one-page document and an extractor
returning nothing. -/
theorem c6_zero_references_fail_witness :
    (startExtraction (fun _ : Unit => Except.ok [str ("x")])
      (fun _ => ([] : List ExtractedReference)) (some ()) [recA]).1.status = str ("failed") ∧
    (startExtraction (fun _ : Unit => Except.ok [str ("x")])
      (fun _ => ([] : List ExtractedReference)) (some ()) [recA]).1.error =
      some (str ("No references were extracted from the text")) ∧
    (startExtraction (fun _ : Unit => Except.ok [str ("x")])
      (fun _ => ([] : List ExtractedReference)) (some ()) [recA]).2 = [recA] :=
  c6_zero_references_fail (fun _ : Unit => Except.ok [str ("x")]) (fun _ => []) () [str ("x")] [recA] rfl rfl


/-- C7 witness: the theorem applied to a store holding one record without a
first author. -/
theorem c7_empty_working_set_witness :
    processEnhancement resolveNone [recNoAuthor] =
      { status := str ("completed")
        progress := 100
        totalReferences := 1
        processedReferences := 0
        enhancedReferences := 0
        error := none
        saved := none
        resolverCalls := 0 } := by
  have h := c7_empty_working_set resolveNone [recNoAuthor] (by decide) (by decide)
  rw [h]
  rfl




/-- C8 witness: the theorem applied to a hit with a matching author and to a
work by a different author. -/
theorem c8_openalex_name_match_witness :
    (∃ works, oracleHit.openAlex (cleanText (str ("T")))
        (if str ("2000") = [] then none else some (str ("2000"))) = some works ∧
      ∃ w rest, works = w :: rest ∧
        ∃ a ∈ w.authorships,
          authorsMatch (str ("J. Smith")) (jsOrEmpty a.author_display_name) = true) ∧
    extractAffiliationFromWork workMiss (str ("Alice Smith")) = none :=
  ⟨c8_openalex_name_match.1 oracleHit (str ("J. Smith")) (str ("T")) (str ("2000"))
     (str ("MIT") ++ countrySuffix (some (str ("US")))) (by decide),
   c8_openalex_name_match.2 workMiss (str ("Alice Smith")) (by decide)⟩



/-- C9 witness: the theorem applied to a one-record store and a resolver
returning an affiliation. -/
theorem c9_enhancement_frame_witness :
    List.Forall₂ frameEq
      [{ recB with firstAuthorAffiliation := some (str ("MIT (US)")) }] [recB] :=
  c9_enhancement_frame resolveHit [recB]
    [{ recB with firstAuthorAffiliation := some (str ("MIT (US)")) }] (by decide)


/-- C10 witness: the theorem applied to an environment whose model call
throws. -/
theorem c10_extractor_never_throws_witness : extractAllReferencesWithLLM envErr (str ("t")) = [] :=
  (c10_extractor_never_throws envErr (str ("t"))).2.2.1 (str ("boom")) (by decide) rfl

/-- C4 (amended).  The name matcher returns true on J. Smith versus John
Smith, true on J. Smith versus Jane Smith (the first initials agree, so the
rule accepts), false on Wiener, N. versus N. Wiener (token order is not
rearranged, so the last tokens differ); and in general it returns true
exactly when the normalized names are equal, one contains the other, or the
last tokens are equal and the first initials are equal or absent. -/
theorem c4_authors_match :
    authorsMatch (str ("J. Smith")) (str ("John Smith")) = true ∧
    authorsMatch (str ("J. Smith")) (str ("Jane Smith")) = true ∧
    authorsMatch (str ("Wiener, N.")) (str ("N. Wiener")) = false ∧
    (∀ name1 name2 : Str, authorsMatch name1 name2 = true ↔ authorsMatchSpec name1 name2) :=
  ⟨by decide, by decide, by decide, authorsMatch_iff_spec⟩

/-- C4 counterexample.  The claim expects false for J. Smith versus Jane
Smith and true for Wiener, N. versus N. Wiener; the code gives the opposite
answers on both. -/
theorem c4_authors_match_counterexample :
    authorsMatch (str ("J. Smith")) (str ("Jane Smith")) = true ∧
    authorsMatch (str ("Wiener, N.")) (str ("N. Wiener")) = false := by
  exact ⟨by decide, by decide⟩
